import Mathlib

/-!
Verification of the stride iterator adapter (StepBy) and the unique-owning
pointer wrapper (Unique) of this repository against its specification.

The Rust code is shallowly embedded:
* machine-word unsigned integers (usize) become Nat together with the
  constant USIZE_MAX; checked/saturating/wrapping operations are explicit;
* the inner lazy sequence consumed by the generic StepBy path is modelled
  by the list of items it will yield, with the iterator-contract operations
  next / nth / nth_back / len realized on lists (spec section 6 contract);
* the specialized integer-range path is parameterized by the bit width w of
  the element type, arithmetic in the element type is taken mod 2 ^ w;
* an aborting assertion (StepBy::new with stride 0) is an Option none;
* the Try-polymorphic folds are modelled with the Except monad.
-/

/-- usize::MAX for the modelled 64-bit target. -/
def USIZE_MAX : Nat := 2 ^ 64 - 1

/-- Rust usize::checked_mul: the product, or none on overflow. -/
def checked_mul (a b : Nat) : Option Nat :=
  if a * b ≤ USIZE_MAX then some (a * b) else none

/-- Rust usize::saturating_mul. -/
def saturating_mul (a b : Nat) : Nat := min (a * b) USIZE_MAX

/-- Rust usize::saturating_add. -/
def saturating_add (a b : Nat) : Nat := min (a + b) USIZE_MAX

/-- Rust usize::div_ceil (unsigned ceiling division, for b at least 1). -/
def div_ceil (a b : Nat) : Nat := (a + b - 1) / b

/-- Iterator::next on a list-modelled inner sequence: first item, rest. -/
def listNext (l : List α) : Option α × List α := (l.head?, l.tail)

/-- Iterator::nth n on a list-modelled inner sequence: skips n items and
yields the following one; n+1 items are consumed (all, if fewer remain). -/
def listNth (l : List α) (n : Nat) : Option α × List α :=
  (l.get? n, l.drop (n + 1))

/-- DoubleEndedIterator::nth_back n on a list-modelled inner sequence:
yields the n-th item from the back; n+1 items are consumed from the back. -/
def listNthBack (l : List α) (n : Nat) : Option α × List α :=
  (l.reverse.get? n, l.take (l.length - (n + 1)))

/-- The StepBy adapter state over a list-modelled inner sequence
(struct StepBy of step_by.rs: iter, step = stride - 1, first_take). -/
structure StepBy (α : Type) where
  iter : List α
  step : Nat
  first_take : Bool
deriving DecidableEq

/-- StepBy::new (generic path; SpecRangeSetup default setup is the
identity): asserts stride is nonzero (abort modelled as none) and stores
stride - 1. -/
def StepBy.new (iter : List α) (step : Nat) : Option (StepBy α) :=
  if step = 0 then none
  else some { iter := iter, step := step - 1, first_take := true }

/-- Generic StepByImpl::spec_next: nth(0) on the first pull, nth(step)
afterwards; first_take is cleared. -/
def StepBy.spec_next (s : StepBy α) : Option α × StepBy α :=
  ((listNth s.iter (if s.first_take then 0 else s.step)).1,
   ⟨(listNth s.iter (if s.first_take then 0 else s.step)).2, s.step, false⟩)

/-- first_size of the generic spec_size_hint. -/
def StepBy.first_size (step n : Nat) : Nat :=
  if n = 0 then 0 else 1 + (n - 1) / (step + 1)

/-- other_size of the generic spec_size_hint. -/
def StepBy.other_size (step n : Nat) : Nat := n / (step + 1)

/-- The generic spec_size_hint as the pure function of the inner hint,
step and first_take that the source computes. -/
def StepBy.size_hint_of (step : Nat) (first_take : Bool) (low : Nat)
    (high : Option Nat) : Nat × Option Nat :=
  if first_take then (first_size step low, high.map (first_size step))
  else (other_size step low, high.map (other_size step))

/-- Generic StepByImpl::spec_size_hint; a list-modelled inner sequence has
the exact hint (length, some length). -/
def StepBy.spec_size_hint (s : StepBy α) : Nat × Option Nat :=
  size_hint_of s.step s.first_take s.iter.length (some s.iter.length)

/-- The overflow-handling loop of the generic spec_nth.  The source loops;
here the loop is a well-founded recursion on n + step, which the loop
strictly decreases (the hypothesis step <= USIZE_MAX holds for the usize
variable step of the source). -/
def StepBy.nthLoop (l : List α) (n step : Nat) (hs : step ≤ USIZE_MAX) :
    Option α × List α :=
  if h : n * step ≤ USIZE_MAX then
    listNth l (n * step - 1)
  else
    let div_n := USIZE_MAX / n
    let div_step := USIZE_MAX / step
    let nth_n := div_n * n
    let nth_step := div_step * step
    if hlt : nth_step < nth_n then
      nthLoop (listNth l (nth_n - 1)).2 n (step - div_n)
        (Nat.le_trans (Nat.sub_le step div_n) hs)
    else
      nthLoop (listNth l (nth_step - 1)).2 (n - div_step) step hs
termination_by n + step
decreasing_by
  · have hn : 0 < n := by
      rcases Nat.eq_zero_or_pos n with h0 | h0
      · exact absurd (by simp [h0] : n * step ≤ USIZE_MAX) h
      · exact h0
    have hstep : 0 < step := by
      rcases Nat.eq_zero_or_pos step with h0 | h0
      · exact absurd (by simp [h0] : n * step ≤ USIZE_MAX) h
      · exact h0
    have hdiv : 0 < USIZE_MAX / n := by
      by_contra hc
      have : USIZE_MAX / n = 0 := Nat.eq_zero_of_not_pos hc
      simp [div_n, nth_n, this] at hlt
    omega
  · have hn : 0 < n := by
      rcases Nat.eq_zero_or_pos n with h0 | h0
      · exact absurd (by simp [h0] : n * step ≤ USIZE_MAX) h
      · exact h0
    have hstep : 0 < step := by
      rcases Nat.eq_zero_or_pos step with h0 | h0
      · exact absurd (by simp [h0] : n * step ≤ USIZE_MAX) h
      · exact h0
    have hdiv : 0 < USIZE_MAX / step := (Nat.one_le_div_iff hstep).2 hs
    omega

/-- Generic spec_nth after the first_take handling: the n = usize::MAX
guard (pre-skip of step - 1, n kept) or the n + 1 promotion, then the
overflow loop. -/
def StepBy.nthCore (l : List α) (n step : Nat) (hs : step ≤ USIZE_MAX) :
    Option α × List α :=
  if n = USIZE_MAX then nthLoop (listNth l (step - 1)).2 n step hs
  else nthLoop l (n + 1) step hs

/-- Generic spec_nth on the inner list: first_take consumes one item from
the inner (returned when n = 0), then nthCore runs with step + 1. -/
def StepBy.nthPair (l : List α) (ft : Bool) (n step : Nat)
    (hs : step + 1 ≤ USIZE_MAX) : Option α × List α :=
  if ft then
    if n = 0 then listNext l
    else nthCore (listNext l).2 (n - 1) (step + 1) hs
  else nthCore l n (step + 1) hs

/-- Generic StepByImpl::spec_nth; the hypothesis states that the stored
usize field step is a machine word. -/
def StepBy.spec_nth (s : StepBy α) (n : Nat) (hs : s.step + 1 ≤ USIZE_MAX) :
    Option α × StepBy α :=
  ((nthPair s.iter s.first_take n s.step hs).1,
   ⟨(nthPair s.iter s.first_take n s.step hs).2, s.step, false⟩)

/-- try_fold of the trivial from_fn sequence that repeatedly calls
inner.nth(step), used by the generic spec_try_fold. -/
def StepBy.nthFromFnTryFold (l : List α) (step : Nat) (acc : β)
    (f : β → α → Except ε β) : Except ε β × List α :=
  match hx : l.get? step with
  | none => (Except.ok acc, l.drop (step + 1))
  | some x =>
    match f acc x with
    | Except.error e => (Except.error e, l.drop (step + 1))
    | Except.ok acc2 => nthFromFnTryFold (l.drop (step + 1)) step acc2 f
termination_by l.length
decreasing_by
  have hlt : step < l.length := by
    by_contra hc
    rw [List.get?_eq_none.2 (Nat.le_of_not_lt hc)] at hx
    exact Option.noConfusion hx
  simp [List.length_drop]
  omega

/-- Generic StepByImpl::spec_try_fold on the inner list: handles the first
element under first_take (propagating a short-circuit of f), then folds the
from_fn nth(step) sequence. -/
def StepBy.tryFoldPair (l : List α) (ft : Bool) (step : Nat) (acc : β)
    (f : β → α → Except ε β) : Except ε β × List α :=
  if ft then
    match l.head? with
    | none => (Except.ok acc, l.tail)
    | some x =>
      match f acc x with
      | Except.error e => (Except.error e, l.tail)
      | Except.ok acc2 => nthFromFnTryFold l.tail step acc2 f
  else nthFromFnTryFold l step acc f

/-- Generic StepByImpl::spec_try_fold. -/
def StepBy.spec_try_fold (s : StepBy α) (acc : β) (f : β → α → Except ε β) :
    Except ε β × StepBy α :=
  ((tryFoldPair s.iter s.first_take s.step acc f).1,
   ⟨(tryFoldPair s.iter s.first_take s.step acc f).2, s.step, false⟩)

/-- fold of the trivial from_fn sequence that repeatedly calls
inner.nth(step), used by the generic spec_fold. -/
def StepBy.nthFromFnFold (l : List α) (step : Nat) (acc : β)
    (f : β → α → β) : β :=
  match hx : l.get? step with
  | none => acc
  | some x => nthFromFnFold (l.drop (step + 1)) step (f acc x) f
termination_by l.length
decreasing_by
  have hlt : step < l.length := by
    by_contra hc
    rw [List.get?_eq_none.2 (Nat.le_of_not_lt hc)] at hx
    exact Option.noConfusion hx
  simp [List.length_drop]
  omega

/-- Generic StepByImpl::spec_fold (consumes the adapter). -/
def StepBy.spec_fold (s : StepBy α) (acc : β) (f : β → α → β) : β :=
  if s.first_take then
    match s.iter.head? with
    | none => acc
    | some x => nthFromFnFold s.iter.tail s.step (f acc x) f
  else nthFromFnFold s.iter s.step acc f

/-- StepBy::next_back_index: the zero-based index from the back of the
next element to yield in reverse. -/
def StepBy.next_back_index (s : StepBy α) : Nat :=
  let rem := s.iter.length % (s.step + 1)
  if s.first_take then (if rem = 0 then s.step else rem - 1) else rem

/-- Generic StepByBackImpl::spec_next_back: nth_back at next_back_index;
first_take is not modified. -/
def StepBy.spec_next_back (s : StepBy α) : Option α × StepBy α :=
  ((listNthBack s.iter s.next_back_index).1,
   ⟨(listNthBack s.iter s.next_back_index).2, s.step, s.first_take⟩)

/-- Generic StepByBackImpl::spec_nth_back: nth_back at
n * (step + 1) + next_back_index with saturating arithmetic. -/
def StepBy.spec_nth_back (s : StepBy α) (n : Nat) : Option α × StepBy α :=
  ((listNthBack s.iter
      (saturating_add (saturating_mul n (s.step + 1)) s.next_back_index)).1,
   ⟨(listNthBack s.iter
      (saturating_add (saturating_mul n (s.step + 1)) s.next_back_index)).2,
    s.step, s.first_take⟩)

/-- try_fold of the trivial from_fn sequence that repeatedly calls
inner.nth_back(step), used by the generic spec_try_rfold. -/
def StepBy.nthBackFromFnTryFold (l : List α) (step : Nat) (acc : β)
    (f : β → α → Except ε β) : Except ε β × List α :=
  match hx : l.reverse.get? step with
  | none => (Except.ok acc, l.take (l.length - (step + 1)))
  | some x =>
    match f acc x with
    | Except.error e => (Except.error e, l.take (l.length - (step + 1)))
    | Except.ok acc2 => nthBackFromFnTryFold (l.take (l.length - (step + 1))) step acc2 f
termination_by l.length
decreasing_by
  have hlt : step < l.length := by
    by_contra hc
    rw [List.get?_eq_none.2 (by simpa using Nat.le_of_not_lt hc)] at hx
    exact Option.noConfusion hx
  simp [List.length_take]
  omega

/-- Generic StepByBackImpl::spec_try_rfold: one spec_next_back (propagating
a short-circuit of f), then the from_fn nth_back(step) fold. -/
def StepBy.spec_try_rfold (s : StepBy α) (acc : β) (f : β → α → Except ε β) :
    Except ε β × StepBy α :=
  match (spec_next_back s).1 with
  | none => (Except.ok acc, (spec_next_back s).2)
  | some x =>
    match f acc x with
    | Except.error e => (Except.error e, (spec_next_back s).2)
    | Except.ok a =>
      ((nthBackFromFnTryFold (spec_next_back s).2.iter s.step a f).1,
       ⟨(nthBackFromFnTryFold (spec_next_back s).2.iter s.step a f).2,
        s.step, s.first_take⟩)

/-- fold of the trivial from_fn sequence that repeatedly calls
inner.nth_back(step), used by the generic spec_rfold. -/
def StepBy.nthBackFromFnFold (l : List α) (step : Nat) (acc : β)
    (f : β → α → β) : β :=
  match hx : l.reverse.get? step with
  | none => acc
  | some x => nthBackFromFnFold (l.take (l.length - (step + 1))) step (f acc x) f
termination_by l.length
decreasing_by
  have hlt : step < l.length := by
    by_contra hc
    rw [List.get?_eq_none.2 (by simpa using Nat.le_of_not_lt hc)] at hx
    exact Option.noConfusion hx
  simp [List.length_take]
  omega

/-- Generic StepByBackImpl::spec_rfold (consumes the adapter). -/
def StepBy.spec_rfold (s : StepBy α) (acc : β) (f : β → α → β) : β :=
  match (spec_next_back s).1 with
  | none => acc
  | some x => nthBackFromFnFold (spec_next_back s).2.iter s.step (f acc x) f

/-- The maximal value of the unsigned element type of bit width w. -/
def tmax (w : Nat) : Nat := 2 ^ w - 1

/-- Range of the element type, as stored by the specialized path: start is
the next value to emit; after setup, stop (the Rust field named end) holds
the remaining-yield counter instead of an upper bound. -/
structure URange where
  start : Nat
  stop : Nat
deriving DecidableEq

/-- The StepBy adapter state on the specialized integer-range path
(StepBy of Range of the width-w unsigned type). -/
structure RStepBy where
  iter : URange
  step : Nat
  first_take : Bool
deriving DecidableEq

/-- SpecRangeSetup::setup for Range of the width-w unsigned type:
inner_len is the lower size hint end - start of the range, the yield count
is inner_len.div_ceil(step), and the range end is overwritten with the
yield count cast to the element type (a truncating cast, mod 2 ^ w). -/
def RStepBy.setup (w : Nat) (r : URange) (step : Nat) : URange :=
  { r with stop := div_ceil (r.stop - r.start) step % 2 ^ w }

/-- StepBy::new on the specialized path: asserts stride is nonzero (abort
modelled as none), runs setup, stores stride - 1. -/
def RStepBy.new (w : Nat) (r : URange) (step : Nat) : Option RStepBy :=
  if step = 0 then none
  else some { iter := setup w r step, step := step - 1, first_take := true }

/-- Specialized spec_next: the step cast
try_from(step + 1).unwrap_or(MAX) is min (step + 1) (tmax w); if the
remaining counter is positive, yield start, advance start by the cast step
with wrapping addition in the element type, decrement the counter. -/
def RStepBy.spec_next (w : Nat) (s : RStepBy) : Option Nat × RStepBy :=
  if 0 < s.iter.stop then
    (some s.iter.start,
     { s with iter := { start := (s.iter.start + min (s.step + 1) (tmax w)) % 2 ^ w,
                        stop := s.iter.stop - 1 } })
  else (none, s)

/-- Specialized spec_size_hint: the exact remaining counter. -/
def RStepBy.spec_size_hint (s : RStepBy) : Nat × Option Nat :=
  (s.iter.stop, some s.iter.stop)

/-- Iterator::advance_by default implementation: n calls of next, stopping
early (with false) when the sequence is exhausted. -/
def RStepBy.advance_by (w : Nat) (s : RStepBy) : Nat → Bool × RStepBy
  | 0 => (true, s)
  | n + 1 =>
    match spec_next w s with
    | (some _, s2) => advance_by w s2 n
    | (none, s2) => (false, s2)

/-- Specialized spec_nth (the Iterator trait default): advance_by n, then
next; none when the advance fell short. -/
def RStepBy.spec_nth (w : Nat) (s : RStepBy) (n : Nat) : Option Nat × RStepBy :=
  match advance_by w s n with
  | (true, s2) => spec_next w s2
  | (false, s2) => (none, s2)

/-- Specialized spec_try_fold (the Iterator trait default): while next
yields a value, combine, short-circuiting on an error of f. -/
def RStepBy.spec_try_fold (w : Nat) (s : RStepBy) (acc : β)
    (f : β → Nat → Except ε β) : Except ε β × RStepBy :=
  match hx : (spec_next w s).1 with
  | none => (Except.ok acc, (spec_next w s).2)
  | some x =>
    match f acc x with
    | Except.error e => (Except.error e, (spec_next w s).2)
    | Except.ok a => spec_try_fold w (spec_next w s).2 a f
termination_by s.iter.stop
decreasing_by
  have h0 : 0 < s.iter.stop := by
    by_contra hc
    simp [spec_next, Nat.eq_zero_of_not_pos hc] at hx
  simp [spec_next, h0]

/-- Specialized spec_fold: reads the cast step, the counter and start once,
then loops the counter down, combining and advancing the value by the cast
step with wrapping addition. -/
def RStepBy.specFoldGo (w step_t : Nat) : Nat → Nat → β → (β → Nat → β) → β
  | 0, _, acc, _ => acc
  | r + 1, val, acc, f => specFoldGo w step_t r ((val + step_t) % 2 ^ w) (f acc val) f

/-- Specialized spec_fold (consumes the adapter). -/
def RStepBy.spec_fold (w : Nat) (s : RStepBy) (acc : β) (f : β → Nat → β) : β :=
  specFoldGo w (min (s.step + 1) (tmax w)) s.iter.stop s.iter.start acc f

/-- Specialized spec_next_back: the step cast (step + 1) as the element
type truncates (mod 2 ^ w); if the counter is positive, decrement it and
yield start + step * (counter - 1), both operations in the element type. -/
def RStepBy.spec_next_back (w : Nat) (s : RStepBy) : Option Nat × RStepBy :=
  if 0 < s.iter.stop then
    (some ((s.iter.start + (((s.step + 1) % 2 ^ w) * (s.iter.stop - 1)) % 2 ^ w) % 2 ^ w),
     { s with iter := { start := s.iter.start, stop := s.iter.stop - 1 } })
  else (none, s)

/-- DoubleEndedIterator::advance_back_by default implementation: n calls of
next_back, stopping early (with false) on exhaustion. -/
def RStepBy.advance_back_by (w : Nat) (s : RStepBy) : Nat → Bool × RStepBy
  | 0 => (true, s)
  | n + 1 =>
    match spec_next_back w s with
    | (some _, s2) => advance_back_by w s2 n
    | (none, s2) => (false, s2)

/-- Specialized spec_nth_back (the trait default): advance_back_by n, then
next_back; none when the advance fell short. -/
def RStepBy.spec_nth_back (w : Nat) (s : RStepBy) (n : Nat) : Option Nat × RStepBy :=
  match advance_back_by w s n with
  | (true, s2) => spec_next_back w s2
  | (false, s2) => (none, s2)

/-- Specialized spec_try_rfold (the trait default): while next_back yields
a value, combine, short-circuiting on an error of f. -/
def RStepBy.spec_try_rfold (w : Nat) (s : RStepBy) (acc : β)
    (f : β → Nat → Except ε β) : Except ε β × RStepBy :=
  match hx : (spec_next_back w s).1 with
  | none => (Except.ok acc, (spec_next_back w s).2)
  | some x =>
    match f acc x with
    | Except.error e => (Except.error e, (spec_next_back w s).2)
    | Except.ok a => spec_try_rfold w (spec_next_back w s).2 a f
termination_by s.iter.stop
decreasing_by
  have h0 : 0 < s.iter.stop := by
    by_contra hc
    simp [spec_next_back, Nat.eq_zero_of_not_pos hc] at hx
  simp [spec_next_back, h0]

/-- Specialized spec_rfold (the trait default): while next_back yields a
value, combine. -/
def RStepBy.spec_rfold (w : Nat) (s : RStepBy) (acc : β) (f : β → Nat → β) : β :=
  match hx : (spec_next_back w s).1 with
  | none => acc
  | some x => spec_rfold w (spec_next_back w s).2 (f acc x) f
termination_by s.iter.stop
decreasing_by
  have h0 : 0 < s.iter.stop := by
    by_contra hc
    simp [spec_next_back, Nat.eq_zero_of_not_pos hc] at hx
  simp [spec_next_back, h0]

/-- A raw pointer is modelled by its address; null is address 0.
NonNull::new (outside this excerpt; modelled from the spec: some exactly
on a nonzero address, carrying that address). -/
def nonNullNew (ptr : Nat) : Option Nat :=
  if ptr = 0 then none else some ptr

/-- Unique of ptr/unique.rs: a wrapper of a NonNull pointer (the address),
owning its pointee. -/
structure UniquePtr where
  pointer : Nat
deriving DecidableEq

/-- Unique::new: some exactly when NonNull::new succeeds, wrapping the
produced pointer. -/
def UniquePtr.new (ptr : Nat) : Option UniquePtr :=
  match nonNullNew ptr with
  | some p => some ⟨p⟩
  | none => none

/-- Unique::as_ptr: the stored address. -/
def UniquePtr.as_ptr (u : UniquePtr) : Nat := u.pointer

/-- Every (step+1)-th element of a list, starting with the first: the
abstract sequence of yields of a StepBy adapter about to yield item 0. -/
def everyNth (l : List α) (step : Nat) : List α :=
  match l with
  | [] => []
  | x :: xs => x :: everyNth (xs.drop step) step
termination_by l.length
decreasing_by
  simp [List.length_drop]
  omega

/-- Reference short-circuiting left fold (the spec's words for try_fold):
combine left to right; on the first error of f return it at once; the
second component is the part of the list strictly after the failing
element (everything when no element fails). -/
def tryFoldModel (f : β → α → Except ε β) : β → List α → Except ε β × List α
  | acc, [] => (Except.ok acc, [])
  | acc, x :: xs =>
    match f acc x with
    | Except.error e => (Except.error e, xs)
    | Except.ok a => tryFoldModel f a xs

/-- The abstract remaining-yield sequence of a generic StepBy state. -/
def gmodel (g : StepBy α) : List α :=
  everyNth (if g.first_take then g.iter else g.iter.drop g.step) g.step

/-- The abstract remaining-yield sequence of a specialized range StepBy
state: the remaining counter many values from start, spaced by the cast
stride. -/
def smodel (w : Nat) (s : RStepBy) : List Nat :=
  List.range' s.iter.start s.iter.stop (min (s.step + 1) (tmax w))

/-- State invariant of the specialized range path: the counter fits the
element type, all remaining values fit the element type, and when at least
two yields remain the stride itself fits the element type. -/
def RInv (w : Nat) (s : RStepBy) : Prop :=
  s.iter.stop ≤ tmax w ∧
  (0 < s.iter.stop →
    s.iter.start + min (s.step + 1) (tmax w) * (s.iter.stop - 1) ≤ tmax w) ∧
  (2 ≤ s.iter.stop → s.step + 1 ≤ tmax w)

/-- The reachable states of the specialized range path: produced by the
constructor from a genuine range of the element type, and closed under
every state-mutating operation of the adapter. -/
inductive RReach (w : Nat) : RStepBy → Prop where
  | new : ∀ (r : URange) (stride : Nat) (s : RStepBy),
      r.start ≤ tmax w → r.stop ≤ tmax w →
      RStepBy.new w r stride = some s → RReach w s
  | next : ∀ s, RReach w s → RReach w (RStepBy.spec_next w s).2
  | next_back : ∀ s, RReach w s → RReach w (RStepBy.spec_next_back w s).2
  | nth : ∀ s n, RReach w s → RReach w (RStepBy.spec_nth w s n).2
  | nth_back : ∀ s n, RReach w s → RReach w (RStepBy.spec_nth_back w s n).2
  | try_fold : ∀ {β ε : Type} s (acc : β) (f : β → Nat → Except ε β),
      RReach w s → RReach w (RStepBy.spec_try_fold w s acc f).2
  | try_rfold : ∀ {β ε : Type} s (acc : β) (f : β → Nat → Except ε β),
      RReach w s → RReach w (RStepBy.spec_try_rfold w s acc f).2

/-- Calling next j+1 times on a generic StepBy state and keeping the last
result and the final state (the spec's words for nth). -/
def StepBy.nextsLast (g : StepBy α) : Nat → Option α × StepBy α
  | 0 => spec_next g
  | j + 1 => nextsLast (spec_next g).2 j

/-- Calling next j+1 times on a specialized range StepBy state and keeping
the last result and the final state (the spec's words for nth). -/
def RStepBy.nextsLast (w : Nat) (s : RStepBy) : Nat → Option Nat × RStepBy
  | 0 => spec_next w s
  | j + 1 => nextsLast w (spec_next w s).2 j

/-- One pull operation of an interleaved traversal. -/
inductive IterOp where
  | next : IterOp
  | next_back : IterOp
  | nth : Nat → IterOp
  | nth_back : Nat → IterOp
deriving DecidableEq

/-- The outputs of an interleaved traversal of the generic adapter. -/
def StepBy.runG (g : StepBy α) (hs : g.step + 1 ≤ USIZE_MAX) :
    List IterOp → List (Option α)
  | [] => []
  | IterOp.next :: ops => (spec_next g).1 :: runG (spec_next g).2 hs ops
  | IterOp.next_back :: ops =>
      (spec_next_back g).1 :: runG (spec_next_back g).2 hs ops
  | IterOp.nth n :: ops => (spec_nth g n hs).1 :: runG (spec_nth g n hs).2 hs ops
  | IterOp.nth_back n :: ops =>
      (spec_nth_back g n).1 :: runG (spec_nth_back g n).2 hs ops

/-- The final state of an interleaved traversal of the generic adapter. -/
def StepBy.stateG (g : StepBy α) (hs : g.step + 1 ≤ USIZE_MAX) :
    List IterOp → StepBy α
  | [] => g
  | IterOp.next :: ops => stateG (spec_next g).2 hs ops
  | IterOp.next_back :: ops => stateG (spec_next_back g).2 hs ops
  | IterOp.nth n :: ops => stateG (spec_nth g n hs).2 hs ops
  | IterOp.nth_back n :: ops => stateG (spec_nth_back g n).2 hs ops

/-- The outputs of an interleaved traversal of the specialized adapter. -/
def RStepBy.runR (w : Nat) (s : RStepBy) : List IterOp → List (Option Nat)
  | [] => []
  | IterOp.next :: ops => (spec_next w s).1 :: runR w (spec_next w s).2 ops
  | IterOp.next_back :: ops =>
      (spec_next_back w s).1 :: runR w (spec_next_back w s).2 ops
  | IterOp.nth n :: ops => (spec_nth w s n).1 :: runR w (spec_nth w s n).2 ops
  | IterOp.nth_back n :: ops =>
      (spec_nth_back w s n).1 :: runR w (spec_nth_back w s n).2 ops

/-- The final state of an interleaved traversal of the specialized
adapter. -/
def RStepBy.stateR (w : Nat) (s : RStepBy) : List IterOp → RStepBy
  | [] => s
  | IterOp.next :: ops => stateR w (spec_next w s).2 ops
  | IterOp.next_back :: ops => stateR w (spec_next_back w s).2 ops
  | IterOp.nth n :: ops => stateR w (spec_nth w s n).2 ops
  | IterOp.nth_back n :: ops => stateR w (spec_nth_back w s n).2 ops

/-- The outputs of an interleaved traversal of the abstract remaining-yield
sequence itself. -/
def runM (ml : List α) : List IterOp → List (Option α)
  | [] => []
  | IterOp.next :: ops => ml.head? :: runM ml.tail ops
  | IterOp.next_back :: ops => ml.getLast? :: runM ml.dropLast ops
  | IterOp.nth n :: ops => ml.get? n :: runM (ml.drop (n + 1)) ops
  | IterOp.nth_back n :: ops =>
      ml.reverse.get? n :: runM (ml.take (ml.length - (n + 1))) ops

/-- The final abstract remaining-yield sequence of an interleaved
traversal. -/
def stateM (ml : List α) : List IterOp → List α
  | [] => ml
  | IterOp.next :: ops => stateM ml.tail ops
  | IterOp.next_back :: ops => stateM ml.dropLast ops
  | IterOp.nth n :: ops => stateM (ml.drop (n + 1)) ops
  | IterOp.nth_back n :: ops => stateM (ml.take (ml.length - (n + 1))) ops

theorem tmax_lt_pow (w : Nat) : tmax w < 2 ^ w := by
  have h : 0 < 2 ^ w := Nat.pos_pow_of_pos w (by omega)
  simp [tmax]

theorem reverse_drop_reverse (l : List α) (n : Nat) :
    (l.reverse.drop n).reverse = l.take (l.length - n) := by
  rcases Nat.le_total n l.length with h | h
  · have h2 : (l.take (l.length - n)).reverse = l.reverse.drop n := by
      have h3 : l.length - (l.length - n) = n := by omega
      rw [List.reverse_take, h3]
    rw [← h2, List.reverse_reverse]
  · have h1 : l.reverse.drop n = [] := by
      apply List.drop_eq_nil_of_le
      simpa using h
    have h2 : l.length - n = 0 := by omega
    simp [h1, h2]

theorem tail_reverse_reverse (l : List α) : l.reverse.tail.reverse = l.dropLast := by
  rw [← List.drop_one, reverse_drop_reverse, List.dropLast_eq_take]

theorem everyNth_nil (step : Nat) : everyNth ([] : List α) step = [] := by
  rw [everyNth]

theorem everyNth_cons (x : α) (xs : List α) (step : Nat) :
    everyNth (x :: xs) step = x :: everyNth (xs.drop step) step := by
  rw [everyNth]

theorem everyNth_head? (l : List α) (step : Nat) :
    (everyNth l step).head? = l.head? := by
  cases l with
  | nil => rw [everyNth_nil]
  | cons x xs => rw [everyNth_cons]; rfl

theorem everyNth_get? (l : List α) (step n : Nat) :
    (everyNth l step).get? n = l.get? (n * (step + 1)) := by
  induction n generalizing l with
  | zero =>
    cases l with
    | nil => simp [everyNth_nil]
    | cons x xs => simp [everyNth_cons]
  | succ n ih =>
    cases l with
    | nil => simp [everyNth_nil]
    | cons x xs =>
      have h1 : (n + 1) * (step + 1) = (step + n * (step + 1)) + 1 := by ring
      rw [everyNth_cons, List.get?_cons_succ, ih, List.get?_drop, h1,
        List.get?_cons_succ]

theorem everyNth_tail (l : List α) (step : Nat) :
    everyNth (l.drop (step + 1)) step = (everyNth l step).tail := by
  cases l with
  | nil => simp [everyNth_nil]
  | cons x xs =>
    rw [everyNth_cons, List.drop_succ_cons]
    rfl

theorem everyNth_drop (l : List α) (step m : Nat) :
    everyNth (l.drop (m * (step + 1))) step = (everyNth l step).drop m := by
  induction m generalizing l with
  | zero => simp
  | succ m ih =>
    have h1 : (m + 1) * (step + 1) = m * (step + 1) + (step + 1) := by ring
    have h2 : l.drop ((m + 1) * (step + 1)) = (l.drop (step + 1)).drop (m * (step + 1)) := by
      rw [List.drop_drop]
      congr 1
      omega
    rw [h2, ih, everyNth_tail, ← List.drop_one, List.drop_drop, Nat.add_comm]

theorem everyNth_length_aux (step : Nat) :
    ∀ (L : Nat) (l : List α), l.length ≤ L →
      (everyNth l step).length = (l.length + step) / (step + 1) := by
  intro L
  induction L with
  | zero =>
    intro l hl
    have h0 : l = [] := List.eq_nil_of_length_eq_zero (by omega)
    subst h0
    simp [everyNth_nil, Nat.div_eq_of_lt (show step < step + 1 by omega)]
  | succ L ih =>
    intro l hl
    cases l with
    | nil => simp [everyNth_nil, Nat.div_eq_of_lt (show step < step + 1 by omega)]
    | cons x xs =>
      rw [everyNth_cons]
      simp only [List.length_cons]
      rw [ih (xs.drop step)
        (by simp only [List.length_drop]; simp only [List.length_cons] at hl; omega)]
      simp only [List.length_drop]
      have h1 : xs.length + 1 + step = xs.length + (step + 1) := by ring
      rw [h1, Nat.add_div_right _ (Nat.succ_pos step)]
      rcases Nat.le_total step xs.length with h | h
      · have h2 : xs.length - step + step = xs.length := by omega
        rw [h2]
      · have h2 : xs.length - step = 0 := by omega
        rw [h2]
        rw [Nat.div_eq_of_lt (show 0 + step < step + 1 by omega),
          Nat.div_eq_of_lt (show xs.length < step + 1 by omega)]

theorem everyNth_length (l : List α) (step : Nat) :
    (everyNth l step).length = (l.length + step) / (step + 1) :=
  everyNth_length_aux step l.length l (Nat.le_refl _)

theorem everyNth_take_aux (step : Nat) :
    ∀ (L : Nat) (l : List α) (m : Nat), l.length ≤ L →
      everyNth (l.take m) step = (everyNth l step).take ((m + step) / (step + 1)) := by
  intro L
  induction L with
  | zero =>
    intro l m hl
    have h0 : l = [] := List.eq_nil_of_length_eq_zero (by omega)
    subst h0
    simp [everyNth_nil]
  | succ L ih =>
    intro l m hl
    cases l with
    | nil => simp [everyNth_nil]
    | cons x xs =>
      cases m with
      | zero =>
        simp [everyNth_nil, Nat.div_eq_of_lt (show step < step + 1 by omega)]
      | succ m =>
        rw [List.take_succ_cons, everyNth_cons, everyNth_cons, List.drop_take,
          ih (xs.drop step) (m - step)
            (by simp only [List.length_drop]; simp only [List.length_cons] at hl; omega)]
        have h1 : m + 1 + step = m + (step + 1) := by ring
        rw [h1, Nat.add_div_right _ (Nat.succ_pos step), List.take_succ_cons]
        have h2 : (m - step + step) / (step + 1) = m / (step + 1) := by
          rcases Nat.le_total step m with h | h
          · have h3 : m - step + step = m := by omega
            rw [h3]
          · have h3 : m - step = 0 := by omega
            rw [h3]
            rw [Nat.div_eq_of_lt (show 0 + step < step + 1 by omega),
              Nat.div_eq_of_lt (show m < step + 1 by omega)]
        rw [h2]

theorem everyNth_take (l : List α) (step m : Nat) :
    everyNth (l.take m) step = (everyNth l step).take ((m + step) / (step + 1)) :=
  everyNth_take_aux step l.length l m (Nat.le_refl _)

theorem range'_drop_1 (s n j : Nat) :
    (List.range' s n 1).drop j = List.range' (s + j) (n - j) 1 := by
  induction j generalizing s n with
  | zero => simp
  | succ j ih =>
    cases n with
    | zero => simp
    | succ n =>
      rw [List.range'_succ, List.drop_succ_cons, ih]
      congr 1 <;> omega

theorem everyNth_range'_aux (step : Nat) :
    ∀ (L : Nat) (a m : Nat), m ≤ L →
      everyNth (List.range' a m 1) step =
        List.range' a ((m + step) / (step + 1)) (step + 1) := by
  intro L
  induction L with
  | zero =>
    intro a m hm
    have h0 : m = 0 := by omega
    subst h0
    simp [everyNth_nil, Nat.div_eq_of_lt (show step < step + 1 by omega)]
  | succ L ih =>
    intro a m hm
    cases m with
    | zero => simp [everyNth_nil, Nat.div_eq_of_lt (show step < step + 1 by omega)]
    | succ m =>
      rw [List.range'_succ, everyNth_cons, range'_drop_1,
        ih (a + 1 + step) (m - step) (by omega)]
      have h1 : m + 1 + step = m + (step + 1) := by ring
      rw [h1, Nat.add_div_right _ (Nat.succ_pos step), List.range'_succ]
      have h2 : (m - step + step) / (step + 1) = m / (step + 1) := by
        rcases Nat.le_total step m with h | h
        · have h3 : m - step + step = m := by omega
          rw [h3]
        · have h3 : m - step = 0 := by omega
          rw [h3]
          rw [Nat.div_eq_of_lt (show 0 + step < step + 1 by omega),
            Nat.div_eq_of_lt (show m < step + 1 by omega)]
      have h4 : a + 1 + step = a + (step + 1) := by omega
      rw [h2, h4]

theorem everyNth_range' (a m step : Nat) :
    everyNth (List.range' a m 1) step =
      List.range' a ((m + step) / (step + 1)) (step + 1) :=
  everyNth_range'_aux step m a m (Nat.le_refl _)

theorem everyNth_drop_step_length (l : List α) (step : Nat) :
    (everyNth (l.drop step) step).length = l.length / (step + 1) := by
  rw [everyNth_length, List.length_drop]
  rcases Nat.le_total step l.length with h | h
  · congr 1
    omega
  · have h2 : l.length - step = 0 := by omega
    rw [h2, Nat.div_eq_of_lt (by omega), Nat.div_eq_of_lt (by omega)]

theorem everyNth_length_mod_zero (l : List α) (step : Nat)
    (hc : l.length % (step + 1) = 0) :
    (everyNth l step).length = l.length / (step + 1) := by
  have hqc : (step + 1) * (l.length / (step + 1)) + l.length % (step + 1) = l.length :=
    Nat.div_add_mod _ _
  rw [everyNth_length]
  have e : l.length + step = (step + 1) * (l.length / (step + 1)) + step := by omega
  rw [e, Nat.mul_add_div (Nat.succ_pos step),
    Nat.div_eq_of_lt (show step < step + 1 by omega), Nat.add_zero]

theorem everyNth_length_mod_pos (l : List α) (step : Nat)
    (hc : l.length % (step + 1) ≠ 0) :
    (everyNth l step).length = l.length / (step + 1) + 1 := by
  have hqc : (step + 1) * (l.length / (step + 1)) + l.length % (step + 1) = l.length :=
    Nat.div_add_mod _ _
  have hck : l.length % (step + 1) < step + 1 := Nat.mod_lt _ (Nat.succ_pos step)
  rw [everyNth_length]
  have e1 : (step + 1) * (l.length / (step + 1) + 1) =
      (step + 1) * (l.length / (step + 1)) + (step + 1) := by ring
  have e : l.length + step =
      (step + 1) * (l.length / (step + 1) + 1) + (l.length % (step + 1) - 1) := by
    omega
  rw [e, Nat.mul_add_div (Nat.succ_pos step),
    Nat.div_eq_of_lt (show l.length % (step + 1) - 1 < step + 1 by omega), Nat.add_zero]

theorem gmodel_reverse (g : StepBy α) :
    (gmodel g).reverse = everyNth (g.iter.reverse.drop g.next_back_index) g.step := by
  obtain ⟨l, step, ft⟩ := g
  have hk : 0 < step + 1 := Nat.succ_pos step
  have hqc : (step + 1) * (l.length / (step + 1)) + l.length % (step + 1) = l.length :=
    Nat.div_add_mod _ _
  have hck : l.length % (step + 1) < step + 1 := Nat.mod_lt _ hk
  apply List.ext_get?
  intro i
  cases ft with
  | false =>
    simp only [gmodel, StepBy.next_back_index, if_false, Bool.false_eq_true]
    have hcount : (everyNth (l.drop step) step).length = l.length / (step + 1) :=
      everyNth_drop_step_length l step
    rw [everyNth_get?, List.get?_drop]
    by_cases hi : i < l.length / (step + 1)
    · obtain ⟨d, hd⟩ : ∃ d, l.length / (step + 1) = i + 1 + d :=
        ⟨l.length / (step + 1) - 1 - i, by omega⟩
      have e1 : (step + 1) * (l.length / (step + 1)) =
          (step + 1) * i + (step + 1) + (step + 1) * d := by rw [hd]; ring
      have e2 : i * (step + 1) = (step + 1) * i := Nat.mul_comm _ _
      have e3 : (l.length / (step + 1) - 1 - i) * (step + 1) = (step + 1) * d := by
        rw [hd]
        have e4 : i + 1 + d - 1 - i = d := by omega
        rw [e4, Nat.mul_comm]
      have hrev : ((everyNth (l.drop step) step).reverse).get? i =
          (everyNth (l.drop step) step).get? ((everyNth (l.drop step) step).length - 1 - i) :=
        List.get?_reverse (by omega)
      rw [hrev, hcount, everyNth_get?, List.get?_drop]
      have hidx : l.length % (step + 1) + i * (step + 1) < l.length := by omega
      rw [List.get?_reverse hidx]
      congr 1
      omega
    · have h1 : ((everyNth (l.drop step) step).reverse).get? i = none := by
        apply List.get?_len_le
        rw [List.length_reverse, hcount]
        omega
      have h2 : l.reverse.get? (l.length % (step + 1) + i * (step + 1)) = none := by
        apply List.get?_len_le
        rw [List.length_reverse]
        have e1 : (step + 1) * (l.length / (step + 1)) ≤ (step + 1) * i :=
          Nat.mul_le_mul_left _ (by omega)
        have e2 : i * (step + 1) = (step + 1) * i := Nat.mul_comm _ _
        omega
      rw [h1, h2]
  | true =>
    simp only [gmodel, StepBy.next_back_index, if_true]
    rw [everyNth_get?, List.get?_drop]
    by_cases hc : l.length % (step + 1) = 0
    · rw [if_pos hc]
      have hcount : (everyNth l step).length = l.length / (step + 1) :=
        everyNth_length_mod_zero l step hc
      by_cases hi : i < l.length / (step + 1)
      · obtain ⟨d, hd⟩ : ∃ d, l.length / (step + 1) = i + 1 + d :=
          ⟨l.length / (step + 1) - 1 - i, by omega⟩
        have e1 : (step + 1) * (l.length / (step + 1)) =
            (step + 1) * i + (step + 1) + (step + 1) * d := by rw [hd]; ring
        have e2 : i * (step + 1) = (step + 1) * i := Nat.mul_comm _ _
        have e3 : (l.length / (step + 1) - 1 - i) * (step + 1) = (step + 1) * d := by
          rw [hd]
          have e4 : i + 1 + d - 1 - i = d := by omega
          rw [e4, Nat.mul_comm]
        have hrev : ((everyNth l step).reverse).get? i =
            (everyNth l step).get? ((everyNth l step).length - 1 - i) :=
          List.get?_reverse (by omega)
        rw [hrev, hcount, everyNth_get?]
        have hidx : step + i * (step + 1) < l.length := by omega
        rw [List.get?_reverse hidx]
        congr 1
        omega
      · have h1 : ((everyNth l step).reverse).get? i = none := by
          apply List.get?_len_le
          rw [List.length_reverse, hcount]
          omega
        have h2 : l.reverse.get? (step + i * (step + 1)) = none := by
          apply List.get?_len_le
          rw [List.length_reverse]
          have e1 : (step + 1) * (l.length / (step + 1)) ≤ (step + 1) * i :=
            Nat.mul_le_mul_left _ (by omega)
          have e2 : i * (step + 1) = (step + 1) * i := Nat.mul_comm _ _
          omega
        rw [h1, h2]
    · rw [if_neg hc]
      have hcount : (everyNth l step).length = l.length / (step + 1) + 1 :=
        everyNth_length_mod_pos l step hc
      by_cases hi : i < l.length / (step + 1) + 1
      · obtain ⟨d, hd⟩ : ∃ d, l.length / (step + 1) = i + d :=
          ⟨l.length / (step + 1) - i, by omega⟩
        have e1 : (step + 1) * (l.length / (step + 1)) =
            (step + 1) * i + (step + 1) * d := by rw [hd]; ring
        have e2 : i * (step + 1) = (step + 1) * i := Nat.mul_comm _ _
        have e3 : (l.length / (step + 1) + 1 - 1 - i) * (step + 1) = (step + 1) * d := by
          rw [hd]
          have e4 : i + d + 1 - 1 - i = d := by omega
          rw [e4, Nat.mul_comm]
        have hrev : ((everyNth l step).reverse).get? i =
            (everyNth l step).get? ((everyNth l step).length - 1 - i) :=
          List.get?_reverse (by omega)
        rw [hrev, hcount, everyNth_get?]
        have hidx : l.length % (step + 1) - 1 + i * (step + 1) < l.length := by omega
        rw [List.get?_reverse hidx]
        congr 1
        omega
      · have h1 : ((everyNth l step).reverse).get? i = none := by
          apply List.get?_len_le
          rw [List.length_reverse, hcount]
          omega
        have h2 : l.reverse.get? (l.length % (step + 1) - 1 + i * (step + 1)) = none := by
          apply List.get?_len_le
          rw [List.length_reverse]
          have e1 : (step + 1) * (l.length / (step + 1) + 1) ≤ (step + 1) * i :=
            Nat.mul_le_mul_left _ (by omega)
          have e2 : i * (step + 1) = (step + 1) * i := Nat.mul_comm _ _
          have e3 : (step + 1) * (l.length / (step + 1) + 1) =
              (step + 1) * (l.length / (step + 1)) + (step + 1) := by ring
          omega
        rw [h1, h2]

theorem gmodel_nil (step : Nat) (ft : Bool) : gmodel ⟨([] : List α), step, ft⟩ = [] := by
  cases ft <;> simp [gmodel, everyNth_nil]

theorem gmodel_reverse_get? (g : StepBy α) (i : Nat) :
    ((gmodel g).reverse).get? i =
      g.iter.reverse.get? (g.next_back_index + i * (g.step + 1)) := by
  rw [gmodel_reverse, everyNth_get?, List.get?_drop]

theorem gmodel_length_le_iff (g : StepBy α) (i : Nat) :
    ((gmodel g).reverse).get? i = none ↔ (gmodel g).length ≤ i := by
  rw [List.get?_eq_none, List.length_reverse]

theorem next_back_index_after (g : StepBy α) (j : Nat)
    (hlen : j * (g.step + 1) + g.next_back_index + 1 < g.iter.length) :
    StepBy.next_back_index
      ⟨g.iter.take (g.iter.length - (j * (g.step + 1) + g.next_back_index + 1)),
       g.step, g.first_take⟩ = g.step := by
  obtain ⟨l, step, ft⟩ := g
  simp only at hlen ⊢
  have hk : 0 < step + 1 := Nat.succ_pos step
  have hqc : (step + 1) * (l.length / (step + 1)) + l.length % (step + 1) = l.length :=
    Nat.div_add_mod _ _
  have hck : l.length % (step + 1) < step + 1 := Nat.mod_lt _ hk
  have e2 : j * (step + 1) = (step + 1) * j := Nat.mul_comm _ _
  have hqj : l.length / (step + 1) ≤ j → False := by
    intro hle
    have := Nat.mul_le_mul_left (step + 1) hle
    cases ft with
    | false => simp only [StepBy.next_back_index, if_false, Bool.false_eq_true] at hlen; omega
    | true =>
      simp only [StepBy.next_back_index, if_true] at hlen
      by_cases hc : l.length % (step + 1) = 0 <;> simp [hc] at hlen <;> omega
  have hq : j < l.length / (step + 1) := by
    by_contra hcon
    exact hqj (by omega)
  obtain ⟨d, hd⟩ : ∃ d, l.length / (step + 1) = j + 1 + d :=
    ⟨l.length / (step + 1) - 1 - j, by omega⟩
  have e1 : (step + 1) * (l.length / (step + 1)) =
      (step + 1) * j + (step + 1) + (step + 1) * d := by rw [hd]; ring
  cases ft with
  | false =>
    simp only [StepBy.next_back_index, if_false, Bool.false_eq_true] at hlen ⊢
    have e5 : l.length - (j * (step + 1) + l.length % (step + 1) + 1) =
        (step + 1) * d + step := by omega
    rw [List.length_take]
    have e6 : min (l.length - (j * (step + 1) + l.length % (step + 1) + 1)) l.length =
        (step + 1) * d + step := by omega
    rw [e6, Nat.mul_add_mod, Nat.mod_eq_of_lt (by omega)]
  | true =>
    simp only [StepBy.next_back_index, if_true] at hlen ⊢
    by_cases hc : l.length % (step + 1) = 0
    · rw [if_pos hc] at hlen ⊢
      rw [List.length_take]
      have e6 : min (l.length - (j * (step + 1) + step + 1)) l.length =
          (step + 1) * d := by omega
      rw [e6, Nat.mul_mod_right]
      simp
    · rw [if_neg hc] at hlen ⊢
      rw [List.length_take]
      have e7 : (step + 1) * (d + 1) = (step + 1) * d + (step + 1) := by ring
      have e6 : min (l.length - (j * (step + 1) + (l.length % (step + 1) - 1) + 1))
          l.length = (step + 1) * (d + 1) := by omega
      rw [e6, Nat.mul_mod_right]
      simp

theorem gref_next_back (g : StepBy α) :
    (g.spec_next_back).1 = (gmodel g).getLast? ∧
    gmodel (g.spec_next_back).2 = (gmodel g).dropLast := by
  constructor
  · have e1 : (g.iter.reverse.drop g.next_back_index).head? =
        g.iter.reverse.get? g.next_back_index := by
      rw [← List.get?_zero, List.get?_drop, Nat.add_zero]
    show g.iter.reverse.get? g.next_back_index = _
    rw [← List.head?_reverse, gmodel_reverse g, everyNth_head?, e1]
  · by_cases hbig : g.iter.length ≤ g.next_back_index + 1
    · have h0 : g.iter.length - (g.next_back_index + 1) = 0 := by omega
      have hcle : (gmodel g).length ≤ 1 := by
        by_contra hcon
        have h1 : ((gmodel g).reverse).get? 1 = none := by
          rw [gmodel_reverse_get? g 1]
          apply List.get?_len_le
          rw [List.length_reverse]
          omega
        rw [gmodel_length_le_iff] at h1
        omega
      show gmodel ⟨g.iter.take (g.iter.length - (g.next_back_index + 1)), g.step,
        g.first_take⟩ = (gmodel g).dropLast
      rw [h0, List.take_zero, gmodel_nil, List.dropLast_eq_take]
      have h2 : (gmodel g).length - 1 = 0 := by omega
      rw [h2, List.take_zero]
    · have hlt : 0 * (g.step + 1) + g.next_back_index + 1 < g.iter.length := by omega
      have hafter := next_back_index_after g 0 hlt
      simp only [Nat.zero_mul, Nat.zero_add] at hafter
      show gmodel ⟨g.iter.take (g.iter.length - (g.next_back_index + 1)), g.step,
        g.first_take⟩ = (gmodel g).dropLast
      have hrevtake : (g.iter.take (g.iter.length - (g.next_back_index + 1))).reverse =
          g.iter.reverse.drop (g.next_back_index + 1) := by
        rw [List.reverse_take]
        congr 1
        omega
      have hmir := gmodel_reverse
        ⟨g.iter.take (g.iter.length - (g.next_back_index + 1)), g.step, g.first_take⟩
      rw [hafter, hrevtake] at hmir
      have hdd : (g.iter.reverse.drop (g.next_back_index + 1)).drop g.step =
          (g.iter.reverse.drop g.next_back_index).drop (g.step + 1) := by
        rw [List.drop_drop, List.drop_drop]
        congr 1
        omega
      rw [hdd, everyNth_tail, ← gmodel_reverse g] at hmir
      have h3 := congrArg List.reverse hmir
      rw [List.reverse_reverse, tail_reverse_reverse] at h3
      exact h3

theorem gref_nth_back (g : StepBy α) (n : Nat) (hl : g.iter.length ≤ USIZE_MAX) :
    (g.spec_nth_back n).1 = ((gmodel g).reverse).get? n ∧
    gmodel (g.spec_nth_back n).2 = (gmodel g).take ((gmodel g).length - (n + 1)) := by
  by_cases hsat : n * (g.step + 1) + g.next_back_index ≤ USIZE_MAX
  · have hm : saturating_add (saturating_mul n (g.step + 1)) g.next_back_index =
        n * (g.step + 1) + g.next_back_index := by
      simp only [saturating_add, saturating_mul]
      omega
    constructor
    · show g.iter.reverse.get?
        (saturating_add (saturating_mul n (g.step + 1)) g.next_back_index) = _
      rw [hm, gmodel_reverse_get? g n]
      congr 1
      omega
    · by_cases hbig : g.iter.length ≤ n * (g.step + 1) + g.next_back_index + 1
      · have hcle : (gmodel g).length ≤ n + 1 := by
          by_contra hcon
          have h1 : ((gmodel g).reverse).get? (n + 1) = none := by
            rw [gmodel_reverse_get? g (n + 1)]
            apply List.get?_len_le
            rw [List.length_reverse]
            have e2 : (n + 1) * (g.step + 1) = n * (g.step + 1) + (g.step + 1) := by ring
            omega
          rw [gmodel_length_le_iff] at h1
          omega
        show gmodel ⟨g.iter.take (g.iter.length -
          (saturating_add (saturating_mul n (g.step + 1)) g.next_back_index + 1)),
          g.step, g.first_take⟩ = _
        rw [hm]
        have h0 : g.iter.length - (n * (g.step + 1) + g.next_back_index + 1) = 0 := by
          omega
        have h2 : (gmodel g).length - (n + 1) = 0 := by omega
        rw [h0, List.take_zero, gmodel_nil, h2, List.take_zero]
      · have hafter := next_back_index_after g n (by omega)
        show gmodel ⟨g.iter.take (g.iter.length -
          (saturating_add (saturating_mul n (g.step + 1)) g.next_back_index + 1)),
          g.step, g.first_take⟩ = _
        rw [hm]
        have hrevtake : (g.iter.take (g.iter.length -
            (n * (g.step + 1) + g.next_back_index + 1))).reverse =
            g.iter.reverse.drop (n * (g.step + 1) + g.next_back_index + 1) := by
          rw [List.reverse_take]
          congr 1
          omega
        have hmir := gmodel_reverse
          ⟨g.iter.take (g.iter.length - (n * (g.step + 1) + g.next_back_index + 1)),
           g.step, g.first_take⟩
        rw [hafter, hrevtake] at hmir
        have hdd : (g.iter.reverse.drop
            (n * (g.step + 1) + g.next_back_index + 1)).drop g.step =
            (g.iter.reverse.drop g.next_back_index).drop ((n + 1) * (g.step + 1)) := by
          rw [List.drop_drop, List.drop_drop]
          congr 1
          have e2 : (n + 1) * (g.step + 1) = n * (g.step + 1) + (g.step + 1) := by ring
          omega
        rw [hdd, everyNth_drop, ← gmodel_reverse g] at hmir
        have h3 := congrArg List.reverse hmir
        rw [List.reverse_reverse, reverse_drop_reverse] at h3
        exact h3
  · have hmge : g.iter.length ≤
        saturating_add (saturating_mul n (g.step + 1)) g.next_back_index := by
      simp only [saturating_add, saturating_mul]
      omega
    have hcle : (gmodel g).length ≤ n := by
      by_contra hcon
      have h1 : ((gmodel g).reverse).get? n = none := by
        rw [gmodel_reverse_get? g n]
        apply List.get?_len_le
        rw [List.length_reverse]
        omega
      rw [gmodel_length_le_iff] at h1
      omega
    constructor
    · show g.iter.reverse.get?
        (saturating_add (saturating_mul n (g.step + 1)) g.next_back_index) = _
      rw [List.get?_len_le (by rw [List.length_reverse]; omega)]
      have h1 : ((gmodel g).reverse).get? n = none := by
        rw [gmodel_length_le_iff]
        omega
      rw [h1]
    · show gmodel ⟨g.iter.take (g.iter.length -
        (saturating_add (saturating_mul n (g.step + 1)) g.next_back_index + 1)),
        g.step, g.first_take⟩ = _
      have h0 : g.iter.length -
          (saturating_add (saturating_mul n (g.step + 1)) g.next_back_index + 1) = 0 := by
        omega
      have h2 : (gmodel g).length - (n + 1) = 0 := by omega
      rw [h0, List.take_zero, gmodel_nil, h2, List.take_zero]


theorem gref_next (g : StepBy α) :
    (g.spec_next).1 = (gmodel g).head? ∧
    gmodel (g.spec_next).2 = (gmodel g).tail := by
  obtain ⟨l, step, ft⟩ := g
  cases ft with
  | true =>
    constructor
    · show (listNth l 0).1 = _
      simp only [gmodel, if_true, listNth, everyNth_head?]
      exact List.get?_zero l
    · show gmodel ⟨(listNth l 0).2, step, false⟩ = _
      simp only [gmodel, if_true, if_false, Bool.false_eq_true, listNth, Nat.zero_add]
      have h1 : (l.drop 1).drop step = l.drop (step + 1) := by
        rw [List.drop_drop]
        congr 1
        omega
      rw [h1, everyNth_tail]
  | false =>
    constructor
    · show (listNth l step).1 = _
      simp only [gmodel, if_false, Bool.false_eq_true, listNth, everyNth_head?]
      rw [← List.get?_zero, List.get?_drop, Nat.add_zero]
    · show gmodel ⟨(listNth l step).2, step, false⟩ = _
      simp only [gmodel, if_false, Bool.false_eq_true, listNth]
      have h1 : (l.drop (step + 1)).drop step = (l.drop step).drop (step + 1) := by
        rw [List.drop_drop, List.drop_drop]
        congr 1
        omega
      rw [h1, everyNth_tail]

theorem nthLoop_char_aux :
    ∀ (fuel : Nat) (l : List α) (n step : Nat) (hs : step ≤ USIZE_MAX),
      n + step ≤ fuel → 1 ≤ n * step →
      StepBy.nthLoop l n step hs = (l.get? (n * step - 1), l.drop (n * step)) := by
  intro fuel
  induction fuel with
  | zero =>
    intro l n step hs hf hpos
    have hn : n = 0 := by omega
    subst hn
    simp at hpos
  | succ fuel ih =>
    intro l n step hs hf hpos
    rw [StepBy.nthLoop.eq_def]
    by_cases h : n * step ≤ USIZE_MAX
    · rw [dif_pos h]
      simp only [listNth]
      have h1 : n * step - 1 + 1 = n * step := by omega
      rw [h1]
    · rw [dif_neg h]
      have hn : 0 < n := by
        rcases Nat.eq_zero_or_pos n with h0 | h0
        · exact absurd (by simp [h0] : n * step ≤ USIZE_MAX) h
        · exact h0
      have hstep : 0 < step := by
        rcases Nat.eq_zero_or_pos step with h0 | h0
        · exact absurd (by simp [h0] : n * step ≤ USIZE_MAX) h
        · exact h0
      have hds : 0 < USIZE_MAX / step := (Nat.one_le_div_iff hstep).2 hs
      have hdsn : USIZE_MAX / step < n := by
        by_contra hc
        have h2 : step * (USIZE_MAX / step) ≤ USIZE_MAX := Nat.mul_div_le _ _
        have h3 : n ≤ USIZE_MAX / step := by omega
        have h4 : step * n ≤ step * (USIZE_MAX / step) := Nat.mul_le_mul_left _ h3
        have h5 : n * step = step * n := Nat.mul_comm _ _
        omega
      by_cases hlt : USIZE_MAX / step * step < USIZE_MAX / n * n
      · rw [dif_pos hlt]
        have hdn : 0 < USIZE_MAX / n := by
          by_contra hc
          have h0 : USIZE_MAX / n = 0 := Nat.eq_zero_of_not_pos hc
          rw [h0] at hlt
          simp at hlt
        have hdns : USIZE_MAX / n < step := by
          by_contra hc
          have h2 : n * (USIZE_MAX / n) ≤ USIZE_MAX := Nat.mul_div_le _ _
          have h3 : step ≤ USIZE_MAX / n := by omega
          have h4 : n * step ≤ n * (USIZE_MAX / n) := Nat.mul_le_mul_left _ h3
          omega
        have hmulsub : n * (step - USIZE_MAX / n) + n * (USIZE_MAX / n) = n * step := by
          rw [← Nat.mul_add]
          congr 1
          omega
        have hpos2 : 1 ≤ n * (step - USIZE_MAX / n) := by
          have := Nat.mul_pos hn (show 0 < step - USIZE_MAX / n by omega)
          omega
        rw [ih ((listNth l (USIZE_MAX / n * n - 1)).2) n (step - USIZE_MAX / n) _
          (by omega) hpos2]
        simp only [listNth]
        have hcm : USIZE_MAX / n * n = n * (USIZE_MAX / n) := Nat.mul_comm _ _
        have h6 : USIZE_MAX / n * n - 1 + 1 = USIZE_MAX / n * n := by
          have h7 : 0 < USIZE_MAX / n * n := Nat.mul_pos hdn hn
          omega
        rw [h6, List.get?_drop, List.drop_drop]
        congr 1
        · congr 1
          omega
        · congr 1
          omega
      · rw [dif_neg hlt]
        have hmulsub : (n - USIZE_MAX / step) * step + USIZE_MAX / step * step
            = n * step := by
          rw [← Nat.add_mul]
          congr 1
          omega
        have hpos2 : 1 ≤ (n - USIZE_MAX / step) * step := by
          have := Nat.mul_pos (show 0 < n - USIZE_MAX / step by omega) hstep
          omega
        rw [ih ((listNth l (USIZE_MAX / step * step - 1)).2) (n - USIZE_MAX / step) step _
          (by omega) hpos2]
        simp only [listNth]
        have h6 : USIZE_MAX / step * step - 1 + 1 = USIZE_MAX / step * step := by
          have h7 : 0 < USIZE_MAX / step * step := Nat.mul_pos hds hstep
          omega
        rw [h6, List.get?_drop, List.drop_drop]
        congr 1
        · congr 1
          omega
        · congr 1
          omega

theorem nthLoop_char (l : List α) (n step : Nat) (hs : step ≤ USIZE_MAX)
    (hpos : 1 ≤ n * step) :
    StepBy.nthLoop l n step hs = (l.get? (n * step - 1), l.drop (n * step)) :=
  nthLoop_char_aux (n + step) l n step hs (Nat.le_refl _) hpos

theorem nthCore_char (l : List α) (n step : Nat) (hs : step ≤ USIZE_MAX)
    (hstep : 1 ≤ step) :
    StepBy.nthCore l n step hs = (l.get? ((n + 1) * step - 1), l.drop ((n + 1) * step)) := by
  have hd : (n + 1) * step = n * step + step := by ring
  unfold StepBy.nthCore
  by_cases hmax : n = USIZE_MAX
  · rw [if_pos hmax]
    have hpos : 1 ≤ n * step := by
      have h1 : 1 * 1 ≤ n * step :=
        Nat.mul_le_mul (by rw [hmax]; simp [USIZE_MAX]) hstep
      omega
    rw [nthLoop_char _ _ _ _ hpos]
    simp only [listNth]
    have h6 : step - 1 + 1 = step := by omega
    rw [h6, List.get?_drop, List.drop_drop]
    congr 1
    · congr 1
      omega
    · congr 1
      omega
  · rw [if_neg hmax]
    have hpos : 1 ≤ (n + 1) * step := by
      have h1 : 1 * 1 ≤ (n + 1) * step := Nat.mul_le_mul (by omega) hstep
      omega
    rw [nthLoop_char _ _ _ _ hpos]

theorem nthPair_char (l : List α) (ft : Bool) (n step : Nat)
    (hs : step + 1 ≤ USIZE_MAX) :
    StepBy.nthPair l ft n step hs =
      (if ft then (l.get? (n * (step + 1)), l.drop (n * (step + 1) + 1))
       else (l.get? ((n + 1) * (step + 1) - 1), l.drop ((n + 1) * (step + 1)))) := by
  cases ft with
  | true =>
    simp only [StepBy.nthPair, if_true]
    by_cases h0 : n = 0
    · subst h0
      simp only [if_pos rfl, listNext]
      rw [← List.get?_zero, ← List.drop_one]
      simp
    · rw [if_neg h0]
      rw [nthCore_char _ _ _ _ (by omega)]
      have h1 : n - 1 + 1 = n := by omega
      rw [h1]
      simp only [listNext]
      rw [← List.drop_one, List.get?_drop, List.drop_drop]
      have hpos : 1 ≤ n * (step + 1) := by
        have h2 : 1 * 1 ≤ n * (step + 1) := Nat.mul_le_mul (by omega) (by omega)
        omega
      congr 1
      · congr 1
        omega
      · congr 1
        omega
  | false =>
    simp only [StepBy.nthPair, if_false, Bool.false_eq_true]
    rw [nthCore_char _ _ _ _ (by omega)]

theorem gref_nth (g : StepBy α) (n : Nat) (hs : g.step + 1 ≤ USIZE_MAX) :
    (g.spec_nth n hs).1 = (gmodel g).get? n ∧
    gmodel (g.spec_nth n hs).2 = (gmodel g).drop (n + 1) := by
  obtain ⟨l, step, ft⟩ := g
  show (StepBy.nthPair l ft n step hs).1 = _ ∧
    gmodel ⟨(StepBy.nthPair l ft n step hs).2, step, false⟩ = _
  rw [nthPair_char]
  cases ft with
  | true =>
    simp only [if_true]
    constructor
    · rw [show gmodel ⟨l, step, true⟩ = everyNth l step from rfl, everyNth_get?]
    · show gmodel ⟨l.drop (n * (step + 1) + 1), step, false⟩ = _
      rw [show gmodel ⟨l.drop (n * (step + 1) + 1), step, false⟩ =
        everyNth ((l.drop (n * (step + 1) + 1)).drop step) step from rfl]
      have h1 : (l.drop (n * (step + 1) + 1)).drop step =
          l.drop ((n + 1) * (step + 1)) := by
        rw [List.drop_drop]
        congr 1
        ring
      rw [h1, everyNth_drop]
      rfl
  | false =>
    simp only [if_false, Bool.false_eq_true]
    constructor
    · rw [show gmodel ⟨l, step, false⟩ = everyNth (l.drop step) step from rfl,
        everyNth_get?, List.get?_drop]
      congr 1
      have h2 : (n + 1) * (step + 1) = n * (step + 1) + (step + 1) := by ring
      omega
    · show gmodel ⟨l.drop ((n + 1) * (step + 1)), step, false⟩ = _
      rw [show gmodel ⟨l.drop ((n + 1) * (step + 1)), step, false⟩ =
        everyNth ((l.drop ((n + 1) * (step + 1))).drop step) step from rfl]
      have h1 : (l.drop ((n + 1) * (step + 1))).drop step =
          (l.drop step).drop ((n + 1) * (step + 1)) := by
        rw [List.drop_drop, List.drop_drop]
        congr 1
        omega
      rw [h1, everyNth_drop]
      rfl

theorem nextsLast_char_false (l : List α) (step : Nat) (j : Nat) :
    StepBy.nextsLast ⟨l, step, false⟩ j =
      (l.get? ((j + 1) * (step + 1) - 1), ⟨l.drop ((j + 1) * (step + 1)), step, false⟩) := by
  induction j generalizing l with
  | zero =>
    show StepBy.spec_next _ = _
    simp only [StepBy.spec_next, listNth, Bool.false_eq_true, if_false]
    have h1 : 1 * (step + 1) - 1 = step := by omega
    have h2 : 1 * (step + 1) = step + 1 := by omega
    rw [h1, h2]
  | succ j ih =>
    show StepBy.nextsLast (StepBy.spec_next ⟨l, step, false⟩).2 j =
      (l.get? ((j + 1 + 1) * (step + 1) - 1),
       ⟨l.drop ((j + 1 + 1) * (step + 1)), step, false⟩)
    have hst : (StepBy.spec_next ⟨l, step, false⟩).2 =
        (⟨l.drop (step + 1), step, false⟩ : StepBy α) := rfl
    rw [hst, ih, List.get?_drop, List.drop_drop]
    have he : (j + 1 + 1) * (step + 1) = (j + 1) * (step + 1) + (step + 1) := by ring
    have hp : 1 ≤ (j + 1) * (step + 1) := by
      have h3 : 1 * 1 ≤ (j + 1) * (step + 1) := Nat.mul_le_mul (by omega) (by omega)
      omega
    have e1 : step + 1 + ((j + 1) * (step + 1) - 1) = (j + 1 + 1) * (step + 1) - 1 := by
      omega
    have e2 : step + 1 + (j + 1) * (step + 1) = (j + 1 + 1) * (step + 1) := by omega
    rw [e1, e2]

theorem nextsLast_char_true (l : List α) (step : Nat) (j : Nat) :
    StepBy.nextsLast ⟨l, step, true⟩ j =
      (l.get? (j * (step + 1)), ⟨l.drop (j * (step + 1) + 1), step, false⟩) := by
  cases j with
  | zero =>
    show StepBy.spec_next _ = _
    simp [StepBy.spec_next, listNth, List.get?_zero]
  | succ j =>
    show StepBy.nextsLast (StepBy.spec_next ⟨l, step, true⟩).2 j =
      (l.get? ((j + 1) * (step + 1)),
       ⟨l.drop ((j + 1) * (step + 1) + 1), step, false⟩)
    have hst : (StepBy.spec_next ⟨l, step, true⟩).2 =
        (⟨l.drop 1, step, false⟩ : StepBy α) := rfl
    rw [hst, nextsLast_char_false, List.get?_drop, List.drop_drop]
    have he : (j + 1) * (step + 1) = j * (step + 1) + (step + 1) := by ring
    have hp : 1 ≤ (j + 1) * (step + 1) := by
      have h3 : 1 * 1 ≤ (j + 1) * (step + 1) := Nat.mul_le_mul (by omega) (by omega)
      omega
    have e1 : 1 + ((j + 1) * (step + 1) - 1) = (j + 1) * (step + 1) := by omega
    have e2 : 1 + (j + 1) * (step + 1) = (j + 1) * (step + 1) + 1 := by omega
    rw [e1, e2]

theorem spec_nth_eq_nextsLast (g : StepBy α) (j : Nat) (hs : g.step + 1 ≤ USIZE_MAX) :
    g.spec_nth j hs = g.nextsLast j := by
  obtain ⟨l, step, ft⟩ := g
  show ((StepBy.nthPair l ft j step hs).1,
      (⟨(StepBy.nthPair l ft j step hs).2, step, false⟩ : StepBy α)) =
    StepBy.nextsLast ⟨l, step, ft⟩ j
  rw [nthPair_char]
  cases ft with
  | true =>
    simp only [if_true]
    rw [nextsLast_char_true]
  | false =>
    simp only [if_false, Bool.false_eq_true]
    rw [nextsLast_char_false]

theorem rnext_stop_zero (w : Nat) (s : RStepBy) (h : s.iter.stop = 0) :
    RStepBy.spec_next w s = (none, s) := by
  simp [RStepBy.spec_next, h]

theorem rnextsLast_stop_zero (w : Nat) (s : RStepBy) (h : s.iter.stop = 0) (j : Nat) :
    RStepBy.nextsLast w s j = (none, s) := by
  induction j with
  | zero => exact rnext_stop_zero w s h
  | succ j ih =>
    show RStepBy.nextsLast w (RStepBy.spec_next w s).2 j = _
    rw [rnext_stop_zero w s h]
    exact ih

theorem rspec_nth_eq_nextsLast (w : Nat) (s : RStepBy) (j : Nat) :
    RStepBy.spec_nth w s j = RStepBy.nextsLast w s j := by
  induction j generalizing s with
  | zero =>
    show (match RStepBy.advance_by w s 0 with
      | (true, s2) => RStepBy.spec_next w s2
      | (false, s2) => (none, s2)) = _
    rfl
  | succ j ih =>
    by_cases h0 : s.iter.stop = 0
    · have h1 : RStepBy.advance_by w s (j + 1) = (false, s) := by
        show (match RStepBy.spec_next w s with
          | (some _, s2) => RStepBy.advance_by w s2 j
          | (none, s2) => (false, s2)) = _
        rw [rnext_stop_zero w s h0]
      show (match RStepBy.advance_by w s (j + 1) with
        | (true, s2) => RStepBy.spec_next w s2
        | (false, s2) => (none, s2)) = _
      rw [h1]
      show _ = RStepBy.nextsLast w (RStepBy.spec_next w s).2 j
      rw [rnext_stop_zero w s h0, rnextsLast_stop_zero w s h0]
    · have h2 : (RStepBy.spec_next w s).1.isSome := by
        simp [RStepBy.spec_next, Nat.pos_of_ne_zero h0]
      have h1 : RStepBy.advance_by w s (j + 1) =
          RStepBy.advance_by w (RStepBy.spec_next w s).2 j := by
        show (match RStepBy.spec_next w s with
          | (some _, s2) => RStepBy.advance_by w s2 j
          | (none, s2) => (false, s2)) = _
        cases hx : RStepBy.spec_next w s with
        | mk o s2 =>
          cases o with
          | some x => simp
          | none => rw [hx] at h2; simp at h2
      show (match RStepBy.advance_by w s (j + 1) with
        | (true, s2) => RStepBy.spec_next w s2
        | (false, s2) => (none, s2)) = _
      rw [h1]
      exact ih (RStepBy.spec_next w s).2

theorem range'_getLast? (a m st : Nat) :
    (List.range' a (m + 1) st).getLast? = some (a + st * m) := by
  rw [List.range'_concat]
  simp

theorem range'_dropLast (a m st : Nat) :
    (List.range' a (m + 1) st).dropLast = List.range' a m st := by
  rw [List.range'_concat]
  simp

theorem rref_next (w : Nat) (s : RStepBy) (hinv : RInv w s) :
    (RStepBy.spec_next w s).1 = (smodel w s).head? ∧
    smodel w (RStepBy.spec_next w s).2 = (smodel w s).tail ∧
    RInv w (RStepBy.spec_next w s).2 := by
  obtain ⟨hs1, hs2, hs3⟩ := hinv
  by_cases h0 : 0 < s.iter.stop
  · obtain ⟨m, hm⟩ : ∃ m, s.iter.stop = m + 1 := ⟨s.iter.stop - 1, by omega⟩
    simp only [RStepBy.spec_next, if_pos h0]
    refine ⟨?_, ?_, ?_, ?_, ?_⟩
    · rw [smodel, hm, List.range'_succ]
      rfl
    · show List.range' ((s.iter.start + min (s.step + 1) (tmax w)) % 2 ^ w)
        (s.iter.stop - 1) (min (s.step + 1) (tmax w)) = _
      rw [smodel, List.tail_range']
      rcases Nat.eq_zero_or_pos (s.iter.stop - 1) with h1 | h1
      · rw [h1]
        simp
      · have h2 : 2 ≤ s.iter.stop := by omega
        have h4 := hs2 h0
        have h6 : min (s.step + 1) (tmax w) * 1 ≤
            min (s.step + 1) (tmax w) * (s.iter.stop - 1) :=
          Nat.mul_le_mul_left _ h1
        have h7 := tmax_lt_pow w
        rw [Nat.mod_eq_of_lt (by omega)]
    · show s.iter.stop - 1 ≤ tmax w
      omega
    · intro h1
      replace h1 : 0 < s.iter.stop - 1 := h1
      show (s.iter.start + min (s.step + 1) (tmax w)) % 2 ^ w +
        min (s.step + 1) (tmax w) * (s.iter.stop - 1 - 1) ≤ tmax w
      rw [show s.iter.stop - 1 - 1 = s.iter.stop - 2 from by omega]
      have h2 : 2 ≤ s.iter.stop := by omega
      have h4 := hs2 h0
      obtain ⟨t, ht⟩ : ∃ t, s.iter.stop = t + 2 := ⟨s.iter.stop - 2, by omega⟩
      have e1 : min (s.step + 1) (tmax w) * (s.iter.stop - 1) =
          min (s.step + 1) (tmax w) + min (s.step + 1) (tmax w) * (s.iter.stop - 2) := by
        rw [ht]
        have e2 : t + 2 - 1 = t + 1 := by omega
        have e3 : t + 2 - 2 = t := by omega
        rw [e2, e3]
        ring
      have h7 := tmax_lt_pow w
      rw [Nat.mod_eq_of_lt (by omega)]
      omega
    · intro h1
      replace h1 : 2 ≤ s.iter.stop - 1 := h1
      show s.step + 1 ≤ tmax w
      exact hs3 (by omega)
  · simp only [RStepBy.spec_next, if_neg h0]
    have h1 : s.iter.stop = 0 := by omega
    refine ⟨?_, ?_, hs1, hs2, hs3⟩
    · simp [smodel, h1]
    · simp [smodel, h1]

theorem rref_next_back (w : Nat) (s : RStepBy) (hinv : RInv w s) :
    (RStepBy.spec_next_back w s).1 = (smodel w s).getLast? ∧
    smodel w (RStepBy.spec_next_back w s).2 = (smodel w s).dropLast ∧
    RInv w (RStepBy.spec_next_back w s).2 := by
  obtain ⟨hs1, hs2, hs3⟩ := hinv
  have h7 := tmax_lt_pow w
  by_cases h0 : 0 < s.iter.stop
  · obtain ⟨m, hm⟩ : ∃ m, s.iter.stop = m + 1 := ⟨s.iter.stop - 1, by omega⟩
    simp only [RStepBy.spec_next_back, if_pos h0]
    have h4 := hs2 h0
    refine ⟨?_, ?_, ?_, ?_, ?_⟩
    · rw [smodel, hm, range'_getLast?]
      congr 1
      rw [hm] at h4
      rcases Nat.eq_zero_or_pos m with h1 | h1
      · subst h1
        have h8 : s.iter.start ≤ tmax w := by simpa using h4
        simp [Nat.mod_eq_of_lt (show s.iter.start < 2 ^ w by omega)]
      · have h2 : 2 ≤ s.iter.stop := by omega
        have h3 := hs3 h2
        have hmin : min (s.step + 1) (tmax w) = s.step + 1 := Nat.min_eq_left h3
        have e0 : m + 1 - 1 = m := by omega
        have hs4 : s.iter.start + (s.step + 1) * m ≤ tmax w := by
          rw [hmin, e0] at h4
          exact h4
        have hp1 : (s.step + 1) % 2 ^ w = s.step + 1 := Nat.mod_eq_of_lt (by omega)
        have hp2 : (s.step + 1) * (m + 1 - 1) = (s.step + 1) * m := by rw [e0]
        have hp3 : (s.step + 1) * m % 2 ^ w = (s.step + 1) * m :=
          Nat.mod_eq_of_lt (by omega)
        have hp4 : (s.iter.start + (s.step + 1) * m) % 2 ^ w =
            s.iter.start + (s.step + 1) * m := Nat.mod_eq_of_lt (by omega)
        rw [hp1, hp2, hp3, hp4, hmin]
    · show List.range' s.iter.start (s.iter.stop - 1) (min (s.step + 1) (tmax w)) = _
      rw [smodel, hm]
      have hmm : m + 1 - 1 = m := by omega
      rw [hmm, range'_dropLast]
    · show s.iter.stop - 1 ≤ tmax w
      omega
    · intro h1
      replace h1 : 0 < s.iter.stop - 1 := h1
      show s.iter.start + min (s.step + 1) (tmax w) * (s.iter.stop - 1 - 1) ≤ tmax w
      have h6 : min (s.step + 1) (tmax w) * (s.iter.stop - 1 - 1) ≤
          min (s.step + 1) (tmax w) * (s.iter.stop - 1) :=
        Nat.mul_le_mul_left _ (by omega)
      omega
    · intro h1
      replace h1 : 2 ≤ s.iter.stop - 1 := h1
      exact hs3 (by omega)
  · simp only [RStepBy.spec_next_back, if_neg h0]
    have h1 : s.iter.stop = 0 := by omega
    refine ⟨?_, ?_, hs1, hs2, hs3⟩
    · simp [smodel, h1]
    · simp [smodel, h1]

theorem rspec_nth_succ (w : Nat) (s : RStepBy) (n : Nat) (h0 : 0 < s.iter.stop) :
    RStepBy.spec_nth w s (n + 1) = RStepBy.spec_nth w (RStepBy.spec_next w s).2 n := by
  have h1 : (RStepBy.spec_next w s).1 = some s.iter.start := by
    simp [RStepBy.spec_next, h0]
  have h2 : RStepBy.advance_by w s (n + 1) =
      RStepBy.advance_by w (RStepBy.spec_next w s).2 n := by
    show (match RStepBy.spec_next w s with
      | (some _, s2) => RStepBy.advance_by w s2 n
      | (none, s2) => (false, s2)) = _
    cases hx : RStepBy.spec_next w s with
    | mk o s2 =>
      cases o with
      | some x => simp
      | none => rw [hx] at h1; simp at h1
  show (match RStepBy.advance_by w s (n + 1) with
    | (true, s2) => RStepBy.spec_next w s2
    | (false, s2) => (none, s2)) = _
  rw [h2]
  rfl

theorem rspec_nth_stop_zero (w : Nat) (s : RStepBy) (n : Nat) (h1 : s.iter.stop = 0) :
    RStepBy.spec_nth w s n = (none, s) := by
  cases n with
  | zero =>
    show RStepBy.spec_next w s = _
    exact rnext_stop_zero w s h1
  | succ n =>
    have h4 : RStepBy.advance_by w s (n + 1) = (false, s) := by
      show (match RStepBy.spec_next w s with
        | (some _, s2) => RStepBy.advance_by w s2 n
        | (none, s2) => (false, s2)) = _
      rw [rnext_stop_zero w s h1]
    show (match RStepBy.advance_by w s (n + 1) with
      | (true, s2) => RStepBy.spec_next w s2
      | (false, s2) => (none, s2)) = _
    rw [h4]

theorem rref_nth (w : Nat) (s : RStepBy) (n : Nat) (hinv : RInv w s) :
    (RStepBy.spec_nth w s n).1 = (smodel w s).get? n ∧
    smodel w (RStepBy.spec_nth w s n).2 = (smodel w s).drop (n + 1) ∧
    RInv w (RStepBy.spec_nth w s n).2 := by
  induction n generalizing s with
  | zero =>
    have h := rref_next w s hinv
    have h1 : RStepBy.spec_nth w s 0 = RStepBy.spec_next w s := rfl
    rw [h1]
    refine ⟨?_, ?_, h.2.2⟩
    · rw [h.1, List.get?_zero]
    · rw [h.2.1, ← List.drop_one]
  | succ n ih =>
    by_cases h0 : 0 < s.iter.stop
    · rw [rspec_nth_succ w s n h0]
      obtain ⟨ho, hsm, hi⟩ := rref_next w s hinv
      obtain ⟨io, ism, ii⟩ := ih (RStepBy.spec_next w s).2 hi
      refine ⟨?_, ?_, ii⟩
      · rw [io, hsm, ← List.drop_one, List.get?_drop]
        congr 1
        omega
      · rw [ism, hsm, ← List.drop_one, List.drop_drop]
        congr 1
        omega
    · have h1 : s.iter.stop = 0 := by omega
      have h2 : smodel w s = [] := by simp [smodel, h1]
      rw [rspec_nth_stop_zero w s (n + 1) h1, h2]
      exact ⟨by simp, by simp [h2], hinv⟩

theorem rspec_nth_back_succ (w : Nat) (s : RStepBy) (n : Nat) (h0 : 0 < s.iter.stop) :
    RStepBy.spec_nth_back w s (n + 1) =
      RStepBy.spec_nth_back w (RStepBy.spec_next_back w s).2 n := by
  have h1 : (RStepBy.spec_next_back w s).1.isSome := by
    simp [RStepBy.spec_next_back, h0]
  have h2 : RStepBy.advance_back_by w s (n + 1) =
      RStepBy.advance_back_by w (RStepBy.spec_next_back w s).2 n := by
    show (match RStepBy.spec_next_back w s with
      | (some _, s2) => RStepBy.advance_back_by w s2 n
      | (none, s2) => (false, s2)) = _
    cases hx : RStepBy.spec_next_back w s with
    | mk o s2 =>
      cases o with
      | some x => simp
      | none => rw [hx] at h1; simp at h1
  show (match RStepBy.advance_back_by w s (n + 1) with
    | (true, s2) => RStepBy.spec_next_back w s2
    | (false, s2) => (none, s2)) = _
  rw [h2]
  rfl

theorem rnext_back_stop_zero (w : Nat) (s : RStepBy) (h : s.iter.stop = 0) :
    RStepBy.spec_next_back w s = (none, s) := by
  simp [RStepBy.spec_next_back, h]

theorem rspec_nth_back_stop_zero (w : Nat) (s : RStepBy) (n : Nat)
    (h1 : s.iter.stop = 0) : RStepBy.spec_nth_back w s n = (none, s) := by
  cases n with
  | zero =>
    show RStepBy.spec_next_back w s = _
    exact rnext_back_stop_zero w s h1
  | succ n =>
    have h4 : RStepBy.advance_back_by w s (n + 1) = (false, s) := by
      show (match RStepBy.spec_next_back w s with
        | (some _, s2) => RStepBy.advance_back_by w s2 n
        | (none, s2) => (false, s2)) = _
      rw [rnext_back_stop_zero w s h1]
    show (match RStepBy.advance_back_by w s (n + 1) with
      | (true, s2) => RStepBy.spec_next_back w s2
      | (false, s2) => (none, s2)) = _
    rw [h4]

theorem dropLast_reverse_eq (l : List α) : l.dropLast.reverse = l.reverse.tail := by
  rw [← tail_reverse_reverse l, List.reverse_reverse]

theorem rref_nth_back (w : Nat) (s : RStepBy) (n : Nat) (hinv : RInv w s) :
    (RStepBy.spec_nth_back w s n).1 = ((smodel w s).reverse).get? n ∧
    smodel w (RStepBy.spec_nth_back w s n).2 =
      (smodel w s).take ((smodel w s).length - (n + 1)) ∧
    RInv w (RStepBy.spec_nth_back w s n).2 := by
  induction n generalizing s with
  | zero =>
    have h := rref_next_back w s hinv
    have h1 : RStepBy.spec_nth_back w s 0 = RStepBy.spec_next_back w s := rfl
    rw [h1]
    refine ⟨?_, ?_, h.2.2⟩
    · rw [h.1, ← List.head?_reverse, List.get?_zero]
    · rw [h.2.1, List.dropLast_eq_take]
  | succ n ih =>
    by_cases h0 : 0 < s.iter.stop
    · rw [rspec_nth_back_succ w s n h0]
      obtain ⟨ho, hsm, hi⟩ := rref_next_back w s hinv
      obtain ⟨io, ism, ii⟩ := ih (RStepBy.spec_next_back w s).2 hi
      refine ⟨?_, ?_, ii⟩
      · rw [io, hsm, dropLast_reverse_eq, ← List.drop_one, List.get?_drop]
        congr 1
        omega
      · rw [ism, hsm, List.dropLast_eq_take, List.take_take, List.length_take]
        congr 1
        omega
    · have h1 : s.iter.stop = 0 := by omega
      have h2 : smodel w s = [] := by simp [smodel, h1]
      rw [rspec_nth_back_stop_zero w s (n + 1) h1, h2]
      exact ⟨by simp, by simp [h2], hinv⟩

theorem reverse_eq_cons_of_getLast? (l : List α) (x : α) (h : l.getLast? = some x) :
    l.reverse = x :: l.dropLast.reverse := by
  cases hml : l.reverse with
  | nil =>
    have h1 : l = [] := by simpa using congrArg List.reverse hml
    rw [h1] at h
    simp at h
  | cons y t =>
    have h2 : l.reverse.head? = some y := by rw [hml]; rfl
    rw [List.head?_reverse] at h2
    rw [h, Option.some_inj] at h2
    rw [dropLast_reverse_eq, hml]
    rw [h2]
    rfl

theorem nthFromFnFold_char_aux (step : Nat) (f : β → α → β) :
    ∀ (L : Nat) (l : List α) (acc : β), l.length ≤ L →
      StepBy.nthFromFnFold l step acc f = (everyNth (l.drop step) step).foldl f acc := by
  intro L
  induction L with
  | zero =>
    intro l acc hl
    have h0 : l = [] := List.eq_nil_of_length_eq_zero (by omega)
    subst h0
    rw [StepBy.nthFromFnFold.eq_def]
    simp [everyNth_nil]
  | succ L ih =>
    intro l acc hl
    cases hx : l.get? step with
    | none =>
      rw [StepBy.nthFromFnFold.eq_def, hx]
      have h2 : l.drop step = [] := List.drop_eq_nil_of_le (List.get?_eq_none.1 hx)
      rw [h2, everyNth_nil]
      rfl
    | some x =>
      have hlt : step < l.length := by
        by_contra hc
        rw [List.get?_eq_none.2 (Nat.le_of_not_lt hc)] at hx
        exact Option.noConfusion hx
      rw [StepBy.nthFromFnFold.eq_def, hx]
      show StepBy.nthFromFnFold (l.drop (step + 1)) step (f acc x) f = _
      rw [ih (l.drop (step + 1)) (f acc x) (by simp [List.length_drop]; omega)]
      have hxe : l.drop step = x :: l.drop (step + 1) := by
        rw [List.drop_eq_getElem_cons hlt]
        have h3 : l[step] = x := by
          have h4 := List.getElem?_eq_getElem hlt
          rw [← List.get?_eq_getElem?] at h4
          rw [hx] at h4
          exact (Option.some_inj.1 h4.symm)
        rw [h3]
      rw [hxe, everyNth_cons]
      rfl

theorem nthFromFnFold_char (l : List α) (step : Nat) (acc : β) (f : β → α → β) :
    StepBy.nthFromFnFold l step acc f = (everyNth (l.drop step) step).foldl f acc :=
  nthFromFnFold_char_aux step f l.length l acc (Nat.le_refl _)

theorem gref_fold (g : StepBy α) (acc : β) (f : β → α → β) :
    g.spec_fold acc f = (gmodel g).foldl f acc := by
  obtain ⟨l, step, ft⟩ := g
  cases ft with
  | false =>
    show StepBy.nthFromFnFold l step acc f = _
    rw [nthFromFnFold_char]
    rfl
  | true =>
    cases l with
    | nil =>
      show (match ([] : List α).head? with
        | none => acc
        | some x => StepBy.nthFromFnFold ([] : List α).tail step (f acc x) f) = _
      rw [gmodel_nil]
      rfl
    | cons y ys =>
      show (match (y :: ys).head? with
        | none => acc
        | some x => StepBy.nthFromFnFold (y :: ys).tail step (f acc x) f) = _
      show StepBy.nthFromFnFold ys step (f acc y) f = _
      rw [nthFromFnFold_char]
      rw [show gmodel ⟨y :: ys, step, true⟩ = everyNth (y :: ys) step from rfl,
        everyNth_cons]
      rfl

theorem nthFromFnTryFold_char_aux (step : Nat) (f : β → α → Except ε β) :
    ∀ (L : Nat) (l : List α) (acc : β), l.length ≤ L →
      (StepBy.nthFromFnTryFold l step acc f).1 =
        (tryFoldModel f acc (everyNth (l.drop step) step)).1 ∧
      everyNth ((StepBy.nthFromFnTryFold l step acc f).2.drop step) step =
        (tryFoldModel f acc (everyNth (l.drop step) step)).2 := by
  intro L
  induction L with
  | zero =>
    intro l acc hl
    have h0 : l = [] := List.eq_nil_of_length_eq_zero (by omega)
    subst h0
    rw [StepBy.nthFromFnTryFold.eq_def]
    simp [everyNth_nil, tryFoldModel]
  | succ L ih =>
    intro l acc hl
    cases hx : l.get? step with
    | none =>
      rw [StepBy.nthFromFnTryFold.eq_def, hx]
      have h2 : l.drop step = [] := List.drop_eq_nil_of_le (List.get?_eq_none.1 hx)
      have h3 : l.drop (step + 1) = [] :=
        List.drop_eq_nil_of_le (by have := List.get?_eq_none.1 hx; omega)
      rw [h2, h3, everyNth_nil]
      simp [tryFoldModel, everyNth_nil]
    | some x =>
      have hlt : step < l.length := by
        by_contra hc
        rw [List.get?_eq_none.2 (Nat.le_of_not_lt hc)] at hx
        exact Option.noConfusion hx
      have hxe : l.drop step = x :: l.drop (step + 1) := by
        rw [List.drop_eq_getElem_cons hlt]
        have h3 : l[step] = x := by
          have h4 := List.getElem?_eq_getElem hlt
          rw [← List.get?_eq_getElem?] at h4
          rw [hx] at h4
          exact (Option.some_inj.1 h4.symm)
        rw [h3]
      rw [StepBy.nthFromFnTryFold.eq_def, hx, hxe, everyNth_cons]
      cases hf : f acc x with
      | error e => simp [tryFoldModel, hf]
      | ok a =>
        simp only [tryFoldModel, hf]
        exact ih (l.drop (step + 1)) a (by simp [List.length_drop]; omega)

theorem nthFromFnTryFold_char (l : List α) (step : Nat) (acc : β)
    (f : β → α → Except ε β) :
    (StepBy.nthFromFnTryFold l step acc f).1 =
      (tryFoldModel f acc (everyNth (l.drop step) step)).1 ∧
    everyNth ((StepBy.nthFromFnTryFold l step acc f).2.drop step) step =
      (tryFoldModel f acc (everyNth (l.drop step) step)).2 :=
  nthFromFnTryFold_char_aux step f l.length l acc (Nat.le_refl _)

theorem gref_try_fold (g : StepBy α) (acc : β) (f : β → α → Except ε β) :
    (g.spec_try_fold acc f).1 = (tryFoldModel f acc (gmodel g)).1 ∧
    gmodel (g.spec_try_fold acc f).2 = (tryFoldModel f acc (gmodel g)).2 := by
  obtain ⟨l, step, ft⟩ := g
  show (StepBy.tryFoldPair l ft step acc f).1 = _ ∧
    gmodel ⟨(StepBy.tryFoldPair l ft step acc f).2, step, false⟩ = _
  cases ft with
  | false =>
    show (StepBy.nthFromFnTryFold l step acc f).1 = _ ∧
      gmodel ⟨(StepBy.nthFromFnTryFold l step acc f).2, step, false⟩ = _
    have h := nthFromFnTryFold_char l step acc f
    exact ⟨h.1, h.2⟩
  | true =>
    cases l with
    | nil =>
      rw [gmodel_nil]
      show (Except.ok acc, ([] : List α).tail).1 = _ ∧
        gmodel ⟨(Except.ok acc, ([] : List α).tail).2, step, false⟩ = _
      simp [tryFoldModel, gmodel_nil]
    | cons y ys =>
      have hg : gmodel ⟨y :: ys, step, true⟩ = y :: everyNth (ys.drop step) step := by
        rw [show gmodel ⟨y :: ys, step, true⟩ = everyNth (y :: ys) step from rfl,
          everyNth_cons]
      rw [hg]
      cases hf : f acc y with
      | error e =>
        have htp : StepBy.tryFoldPair (y :: ys) true step acc f =
            (Except.error e, ys) := by
          show (match f acc y with
            | Except.error e => (Except.error e, (y :: ys).tail)
            | Except.ok acc2 => StepBy.nthFromFnTryFold (y :: ys).tail step acc2 f) = _
          rw [hf]
          rfl
        rw [htp]
        simp [tryFoldModel, hf, gmodel]
      | ok a =>
        have htp : StepBy.tryFoldPair (y :: ys) true step acc f =
            StepBy.nthFromFnTryFold ys step a f := by
          show (match f acc y with
            | Except.error e => (Except.error e, (y :: ys).tail)
            | Except.ok acc2 => StepBy.nthFromFnTryFold (y :: ys).tail step acc2 f) = _
          rw [hf]
          rfl
        rw [htp]
        simp only [tryFoldModel, hf]
        have h := nthFromFnTryFold_char ys step a f
        exact ⟨h.1, h.2⟩

theorem nthBackFromFnFold_eq_aux (step : Nat) (f : β → α → β) :
    ∀ (L : Nat) (l : List α) (acc : β), l.length ≤ L →
      StepBy.nthBackFromFnFold l step acc f =
        StepBy.nthFromFnFold l.reverse step acc f := by
  intro L
  induction L with
  | zero =>
    intro l acc hl
    have h0 : l = [] := List.eq_nil_of_length_eq_zero (by omega)
    subst h0
    rw [StepBy.nthBackFromFnFold.eq_def, StepBy.nthFromFnFold.eq_def]
    rfl
  | succ L ih =>
    intro l acc hl
    cases hx : l.reverse.get? step with
    | none =>
      rw [StepBy.nthBackFromFnFold.eq_def, hx, StepBy.nthFromFnFold.eq_def, hx]
    | some x =>
      have hlt : step < l.length := by
        have h1 : step < l.reverse.length := by
          by_contra hc
          rw [List.get?_eq_none.2 (Nat.le_of_not_lt hc)] at hx
          exact Option.noConfusion hx
        simpa using h1
      rw [StepBy.nthBackFromFnFold.eq_def, hx, StepBy.nthFromFnFold.eq_def, hx]
      show StepBy.nthBackFromFnFold (l.take (l.length - (step + 1))) step (f acc x) f =
        StepBy.nthFromFnFold (l.reverse.drop (step + 1)) step (f acc x) f
      rw [ih (l.take (l.length - (step + 1))) (f acc x)
        (by simp [List.length_take]; omega)]
      congr 1
      rw [List.reverse_take]
      congr 1
      omega

theorem nthBackFromFnFold_eq (l : List α) (step : Nat) (acc : β) (f : β → α → β) :
    StepBy.nthBackFromFnFold l step acc f = StepBy.nthFromFnFold l.reverse step acc f :=
  nthBackFromFnFold_eq_aux step f l.length l acc (Nat.le_refl _)

theorem nthBackFromFnTryFold_eq_aux (step : Nat) (f : β → α → Except ε β) :
    ∀ (L : Nat) (l : List α) (acc : β), l.length ≤ L →
      (StepBy.nthBackFromFnTryFold l step acc f).1 =
        (StepBy.nthFromFnTryFold l.reverse step acc f).1 := by
  intro L
  induction L with
  | zero =>
    intro l acc hl
    have h0 : l = [] := List.eq_nil_of_length_eq_zero (by omega)
    subst h0
    rw [StepBy.nthBackFromFnTryFold.eq_def, StepBy.nthFromFnTryFold.eq_def]
    rfl
  | succ L ih =>
    intro l acc hl
    cases hx : l.reverse.get? step with
    | none =>
      rw [StepBy.nthBackFromFnTryFold.eq_def, hx, StepBy.nthFromFnTryFold.eq_def, hx]
    | some x =>
      have hlt : step < l.length := by
        have h1 : step < l.reverse.length := by
          by_contra hc
          rw [List.get?_eq_none.2 (Nat.le_of_not_lt hc)] at hx
          exact Option.noConfusion hx
        simpa using h1
      rw [StepBy.nthBackFromFnTryFold.eq_def, hx, StepBy.nthFromFnTryFold.eq_def, hx]
      show ((match f acc x with
        | Except.error e => ((Except.error e : Except ε β),
            l.take (l.length - (step + 1)))
        | Except.ok acc2 =>
            StepBy.nthBackFromFnTryFold (l.take (l.length - (step + 1)))
              step acc2 f)).1 =
        ((match f acc x with
        | Except.error e => ((Except.error e : Except ε β),
            l.reverse.drop (step + 1))
        | Except.ok acc2 =>
            StepBy.nthFromFnTryFold (l.reverse.drop (step + 1)) step acc2 f)).1
      cases hf : f acc x with
      | error e => rfl
      | ok a =>
        show (StepBy.nthBackFromFnTryFold (l.take (l.length - (step + 1))) step a f).1 =
          (StepBy.nthFromFnTryFold (l.reverse.drop (step + 1)) step a f).1
        rw [ih (l.take (l.length - (step + 1))) a (by simp [List.length_take]; omega)]
        congr 2
        rw [List.reverse_take]
        congr 1
        omega

theorem nthBackFromFnTryFold_eq (l : List α) (step : Nat) (acc : β)
    (f : β → α → Except ε β) :
    (StepBy.nthBackFromFnTryFold l step acc f).1 =
      (StepBy.nthFromFnTryFold l.reverse step acc f).1 :=
  nthBackFromFnTryFold_eq_aux step f l.length l acc (Nat.le_refl _)

theorem back_loop_model (g : StepBy α) :
    everyNth ((g.spec_next_back).2.iter.reverse.drop g.step) g.step =
      ((gmodel g).dropLast).reverse := by
  by_cases hbig : g.iter.length ≤ g.next_back_index + 1
  · have h0 : g.iter.length - (g.next_back_index + 1) = 0 := by omega
    have h2 : (gmodel g).dropLast = [] := by
      have h := (gref_next_back g).2
      rw [← h]
      show gmodel ⟨g.iter.take (g.iter.length - (g.next_back_index + 1)), g.step,
        g.first_take⟩ = []
      rw [h0, List.take_zero, gmodel_nil]
    rw [h2]
    show everyNth ((g.iter.take (g.iter.length - (g.next_back_index + 1))).reverse.drop
      g.step) g.step = []
    rw [h0, List.take_zero]
    simp [everyNth_nil]
  · have hlen : 0 * (g.step + 1) + g.next_back_index + 1 < g.iter.length := by omega
    have hafter := next_back_index_after g 0 hlen
    simp only [Nat.zero_mul, Nat.zero_add] at hafter
    have hmir := gmodel_reverse
      ⟨g.iter.take (g.iter.length - (g.next_back_index + 1)), g.step, g.first_take⟩
    rw [hafter] at hmir
    show everyNth ((g.iter.take (g.iter.length - (g.next_back_index + 1))).reverse.drop
      g.step) g.step = _
    rw [← hmir]
    congr 1
    exact (gref_next_back g).2

theorem gref_rfold (g : StepBy α) (acc : β) (f : β → α → β) :
    g.spec_rfold acc f = ((gmodel g).reverse).foldl f acc := by
  have hout := (gref_next_back g).1
  cases hl : (gmodel g).getLast? with
  | none =>
    have h1 : (g.spec_next_back).1 = none := hout.trans hl
    have h3 : gmodel g = [] := by
      cases hml : gmodel g with
      | nil => rfl
      | cons z t =>
        rw [hml] at hl
        cases t <;> simp_all [List.getLast?]
    show (match (g.spec_next_back).1 with
      | none => acc
      | some x =>
          StepBy.nthBackFromFnFold (g.spec_next_back).2.iter g.step (f acc x) f) = _
    rw [h1, h3]
    rfl
  | some x =>
    have h1 : (g.spec_next_back).1 = some x := hout.trans hl
    show (match (g.spec_next_back).1 with
      | none => acc
      | some y =>
          StepBy.nthBackFromFnFold (g.spec_next_back).2.iter g.step (f acc y) f) = _
    rw [h1]
    show StepBy.nthBackFromFnFold (g.spec_next_back).2.iter g.step (f acc x) f = _
    rw [nthBackFromFnFold_eq, nthFromFnFold_char, back_loop_model g,
      reverse_eq_cons_of_getLast? _ _ hl]
    rfl

theorem gref_try_rfold (g : StepBy α) (acc : β) (f : β → α → Except ε β) :
    (g.spec_try_rfold acc f).1 = (tryFoldModel f acc ((gmodel g).reverse)).1 := by
  have hout := (gref_next_back g).1
  cases hl : (gmodel g).getLast? with
  | none =>
    have h1 : (g.spec_next_back).1 = none := hout.trans hl
    have h3 : gmodel g = [] := by
      cases hml : gmodel g with
      | nil => rfl
      | cons z t =>
        rw [hml] at hl
        cases t <;> simp_all [List.getLast?]
    rw [h3]
    show (match (g.spec_next_back).1 with
      | none => ((Except.ok acc : Except ε β), (g.spec_next_back).2)
      | some x =>
        match f acc x with
        | Except.error e => ((Except.error e : Except ε β), (g.spec_next_back).2)
        | Except.ok a =>
          ((StepBy.nthBackFromFnTryFold (g.spec_next_back).2.iter g.step a f).1,
           (⟨(StepBy.nthBackFromFnTryFold (g.spec_next_back).2.iter g.step a f).2,
             g.step, g.first_take⟩ : StepBy α))).1 = _
    rw [h1]
    rfl
  | some x =>
    have h1 : (g.spec_next_back).1 = some x := hout.trans hl
    rw [reverse_eq_cons_of_getLast? _ _ hl]
    show (match (g.spec_next_back).1 with
      | none => ((Except.ok acc : Except ε β), (g.spec_next_back).2)
      | some x =>
        match f acc x with
        | Except.error e => ((Except.error e : Except ε β), (g.spec_next_back).2)
        | Except.ok a =>
          ((StepBy.nthBackFromFnTryFold (g.spec_next_back).2.iter g.step a f).1,
           (⟨(StepBy.nthBackFromFnTryFold (g.spec_next_back).2.iter g.step a f).2,
             g.step, g.first_take⟩ : StepBy α))).1 =
      (tryFoldModel f acc (x :: ((gmodel g).dropLast).reverse)).1
    rw [h1]
    show (match f acc x with
      | Except.error e => ((Except.error e : Except ε β), (g.spec_next_back).2)
      | Except.ok a =>
        ((StepBy.nthBackFromFnTryFold (g.spec_next_back).2.iter g.step a f).1,
         (⟨(StepBy.nthBackFromFnTryFold (g.spec_next_back).2.iter g.step a f).2,
           g.step, g.first_take⟩ : StepBy α))).1 =
      (tryFoldModel f acc (x :: ((gmodel g).dropLast).reverse)).1
    cases hf : f acc x with
    | error e => simp [tryFoldModel, hf]
    | ok a =>
      simp only [tryFoldModel, hf]
      show (StepBy.nthBackFromFnTryFold (g.spec_next_back).2.iter g.step a f).1 = _
      rw [nthBackFromFnTryFold_eq]
      have h := (nthFromFnTryFold_char ((g.spec_next_back).2.iter.reverse) g.step a f).1
      rw [h, back_loop_model g]

theorem rtry_fold_zero (w : Nat) (s : RStepBy) (acc : β) (f : β → Nat → Except ε β)
    (h : s.iter.stop = 0) :
    RStepBy.spec_try_fold w s acc f = (Except.ok acc, s) := by
  rw [RStepBy.spec_try_fold.eq_def]
  have h1 : (RStepBy.spec_next w s).1 = none := by rw [rnext_stop_zero w s h]
  rw [h1]
  rw [rnext_stop_zero w s h]

theorem rtry_fold_succ (w : Nat) (s : RStepBy) (acc : β) (f : β → Nat → Except ε β)
    (h : 0 < s.iter.stop) :
    RStepBy.spec_try_fold w s acc f =
      (match f acc s.iter.start with
       | Except.error e => (Except.error e, (RStepBy.spec_next w s).2)
       | Except.ok a => RStepBy.spec_try_fold w (RStepBy.spec_next w s).2 a f) := by
  rw [RStepBy.spec_try_fold.eq_def]
  have h1 : (RStepBy.spec_next w s).1 = some s.iter.start := by
    simp [RStepBy.spec_next, h]
  rw [h1]

theorem rref_try_fold_aux (w : Nat) (f : β → Nat → Except ε β) :
    ∀ (m : Nat) (s : RStepBy) (acc : β), s.iter.stop = m → RInv w s →
      (RStepBy.spec_try_fold w s acc f).1 = (tryFoldModel f acc (smodel w s)).1 ∧
      smodel w (RStepBy.spec_try_fold w s acc f).2 =
        (tryFoldModel f acc (smodel w s)).2 ∧
      RInv w (RStepBy.spec_try_fold w s acc f).2 := by
  intro m
  induction m with
  | zero =>
    intro s acc hm hinv
    rw [rtry_fold_zero w s acc f hm]
    have h2 : smodel w s = [] := by simp [smodel, hm]
    rw [h2]
    exact ⟨rfl, rfl, hinv⟩
  | succ m ih =>
    intro s acc hm hinv
    have hpos : 0 < s.iter.stop := by omega
    rw [rtry_fold_succ w s acc f hpos]
    obtain ⟨ho, hsm, hi⟩ := rref_next w s hinv
    have hsml : smodel w s = s.iter.start :: smodel w (RStepBy.spec_next w s).2 := by
      rw [hsm]
      rw [show smodel w s =
        List.range' s.iter.start s.iter.stop (min (s.step + 1) (tmax w)) from rfl,
        hm, List.range'_succ]
      rfl
    have hst2 : (RStepBy.spec_next w s).2.iter.stop = m := by
      simp only [RStepBy.spec_next, if_pos hpos]
      omega
    cases hf : f acc s.iter.start with
    | error e =>
      simp only [hf]
      rw [hsml]
      simp only [tryFoldModel, hf]
      exact ⟨trivial, trivial, hi⟩
    | ok a =>
      simp only [hf]
      rw [hsml]
      simp only [tryFoldModel, hf]
      exact ih (RStepBy.spec_next w s).2 a hst2 hi

theorem rref_try_fold (w : Nat) (s : RStepBy) (acc : β) (f : β → Nat → Except ε β)
    (hinv : RInv w s) :
    (RStepBy.spec_try_fold w s acc f).1 = (tryFoldModel f acc (smodel w s)).1 ∧
    smodel w (RStepBy.spec_try_fold w s acc f).2 =
      (tryFoldModel f acc (smodel w s)).2 ∧
    RInv w (RStepBy.spec_try_fold w s acc f).2 :=
  rref_try_fold_aux w f s.iter.stop s acc rfl hinv

theorem specFoldGo_char (w shat : Nat) (f : β → Nat → β) :
    ∀ (stop start : Nat) (acc : β),
      (0 < stop → start + shat * (stop - 1) ≤ tmax w) →
      RStepBy.specFoldGo w shat stop start acc f =
        List.foldl f acc (List.range' start stop shat) := by
  intro stop
  induction stop with
  | zero =>
    intro start acc hb
    simp [RStepBy.specFoldGo]
  | succ m ih =>
    intro start acc hb
    show RStepBy.specFoldGo w shat m ((start + shat) % 2 ^ w) (f acc start) f = _
    rw [List.range'_succ]
    show _ = List.foldl f (f acc start) (List.range' (start + shat) m shat)
    rcases Nat.eq_zero_or_pos m with h0 | h0
    · subst h0
      simp [RStepBy.specFoldGo]
    · have hb1 := hb (by omega)
      obtain ⟨t, ht⟩ : ∃ t, m = t + 1 := ⟨m - 1, by omega⟩
      have e1 : shat * (m + 1 - 1) = shat + shat * (m - 1) := by
        rw [ht]
        have e2 : t + 1 + 1 - 1 = t + 1 := by omega
        have e3 : t + 1 - 1 = t := by omega
        rw [e2, e3]
        ring
      have h7 := tmax_lt_pow w
      have hmod : (start + shat) % 2 ^ w = start + shat := Nat.mod_eq_of_lt (by omega)
      rw [hmod]
      exact ih (start + shat) (f acc start) (by intro h2; omega)

theorem rref_fold (w : Nat) (s : RStepBy) (acc : β) (f : β → Nat → β)
    (hinv : RInv w s) :
    RStepBy.spec_fold w s acc f = List.foldl f acc (smodel w s) :=
  specFoldGo_char w (min (s.step + 1) (tmax w)) f s.iter.stop s.iter.start acc hinv.2.1

theorem rtry_rfold_none (w : Nat) (s : RStepBy) (acc : β) (f : β → Nat → Except ε β)
    (h1 : (RStepBy.spec_next_back w s).1 = none) :
    RStepBy.spec_try_rfold w s acc f = (Except.ok acc, (RStepBy.spec_next_back w s).2) := by
  rw [RStepBy.spec_try_rfold.eq_def, h1]

theorem rtry_rfold_some (w : Nat) (s : RStepBy) (acc : β) (f : β → Nat → Except ε β)
    (x : Nat) (h1 : (RStepBy.spec_next_back w s).1 = some x) :
    RStepBy.spec_try_rfold w s acc f =
      (match f acc x with
       | Except.error e => (Except.error e, (RStepBy.spec_next_back w s).2)
       | Except.ok a => RStepBy.spec_try_rfold w (RStepBy.spec_next_back w s).2 a f) := by
  rw [RStepBy.spec_try_rfold.eq_def, h1]

theorem rref_try_rfold_aux (w : Nat) (f : β → Nat → Except ε β) :
    ∀ (m : Nat) (s : RStepBy) (acc : β), s.iter.stop = m → RInv w s →
      (RStepBy.spec_try_rfold w s acc f).1 =
        (tryFoldModel f acc ((smodel w s).reverse)).1 ∧
      smodel w (RStepBy.spec_try_rfold w s acc f).2 =
        ((tryFoldModel f acc ((smodel w s).reverse)).2).reverse ∧
      RInv w (RStepBy.spec_try_rfold w s acc f).2 := by
  intro m
  induction m with
  | zero =>
    intro s acc hm hinv
    have h1 : (RStepBy.spec_next_back w s).1 = none := by
      rw [rnext_back_stop_zero w s hm]
    rw [rtry_rfold_none w s acc f h1, rnext_back_stop_zero w s hm]
    have h2 : smodel w s = [] := by simp [smodel, hm]
    rw [h2]
    exact ⟨rfl, rfl, hinv⟩
  | succ m ih =>
    intro s acc hm hinv
    have hpos : 0 < s.iter.stop := by omega
    obtain ⟨ho, hsm, hi⟩ := rref_next_back w s hinv
    have hgl : (smodel w s).getLast? =
        some (s.iter.start + min (s.step + 1) (tmax w) * m) := by
      rw [show smodel w s =
        List.range' s.iter.start s.iter.stop (min (s.step + 1) (tmax w)) from rfl,
        hm, range'_getLast?]
    have h1 : (RStepBy.spec_next_back w s).1 =
        some (s.iter.start + min (s.step + 1) (tmax w) * m) := ho.trans hgl
    rw [rtry_rfold_some w s acc f _ h1]
    have hrev : (smodel w s).reverse =
        (s.iter.start + min (s.step + 1) (tmax w) * m) ::
          ((smodel w s).dropLast).reverse :=
      reverse_eq_cons_of_getLast? _ _ hgl
    rw [hrev, ← hsm]
    have hst2 : (RStepBy.spec_next_back w s).2.iter.stop = m := by
      simp only [RStepBy.spec_next_back, if_pos hpos]
      omega
    cases hf : f acc (s.iter.start + min (s.step + 1) (tmax w) * m) with
    | error e =>
      simp only [hf]
      simp only [tryFoldModel, hf]
      refine ⟨trivial, ?_, hi⟩
      rw [List.reverse_reverse]
    | ok a =>
      simp only [hf]
      simp only [tryFoldModel, hf]
      exact ih (RStepBy.spec_next_back w s).2 a hst2 hi

theorem rref_try_rfold (w : Nat) (s : RStepBy) (acc : β) (f : β → Nat → Except ε β)
    (hinv : RInv w s) :
    (RStepBy.spec_try_rfold w s acc f).1 =
      (tryFoldModel f acc ((smodel w s).reverse)).1 ∧
    smodel w (RStepBy.spec_try_rfold w s acc f).2 =
      ((tryFoldModel f acc ((smodel w s).reverse)).2).reverse ∧
    RInv w (RStepBy.spec_try_rfold w s acc f).2 :=
  rref_try_rfold_aux w f s.iter.stop s acc rfl hinv

theorem rrfold_none (w : Nat) (s : RStepBy) (acc : β) (f : β → Nat → β)
    (h1 : (RStepBy.spec_next_back w s).1 = none) :
    RStepBy.spec_rfold w s acc f = acc := by
  rw [RStepBy.spec_rfold.eq_def, h1]

theorem rrfold_some (w : Nat) (s : RStepBy) (acc : β) (f : β → Nat → β)
    (x : Nat) (h1 : (RStepBy.spec_next_back w s).1 = some x) :
    RStepBy.spec_rfold w s acc f =
      RStepBy.spec_rfold w (RStepBy.spec_next_back w s).2 (f acc x) f := by
  rw [RStepBy.spec_rfold.eq_def, h1]

theorem rref_rfold_aux (w : Nat) (f : β → Nat → β) :
    ∀ (m : Nat) (s : RStepBy) (acc : β), s.iter.stop = m → RInv w s →
      RStepBy.spec_rfold w s acc f = List.foldl f acc ((smodel w s).reverse) := by
  intro m
  induction m with
  | zero =>
    intro s acc hm hinv
    have h1 : (RStepBy.spec_next_back w s).1 = none := by
      rw [rnext_back_stop_zero w s hm]
    rw [rrfold_none w s acc f h1]
    simp [smodel, hm]
  | succ m ih =>
    intro s acc hm hinv
    have hpos : 0 < s.iter.stop := by omega
    obtain ⟨ho, hsm, hi⟩ := rref_next_back w s hinv
    have hgl : (smodel w s).getLast? =
        some (s.iter.start + min (s.step + 1) (tmax w) * m) := by
      rw [show smodel w s =
        List.range' s.iter.start s.iter.stop (min (s.step + 1) (tmax w)) from rfl,
        hm, range'_getLast?]
    have h1 : (RStepBy.spec_next_back w s).1 =
        some (s.iter.start + min (s.step + 1) (tmax w) * m) := ho.trans hgl
    rw [rrfold_some w s acc f _ h1]
    have hrev : (smodel w s).reverse =
        (s.iter.start + min (s.step + 1) (tmax w) * m) ::
          ((smodel w s).dropLast).reverse :=
      reverse_eq_cons_of_getLast? _ _ hgl
    rw [hrev, ← hsm]
    have hst2 : (RStepBy.spec_next_back w s).2.iter.stop = m := by
      simp only [RStepBy.spec_next_back, if_pos hpos]
      omega
    rw [ih (RStepBy.spec_next_back w s).2 _ hst2 hi]
    rfl

theorem rref_rfold (w : Nat) (s : RStepBy) (acc : β) (f : β → Nat → β)
    (hinv : RInv w s) :
    RStepBy.spec_rfold w s acc f = List.foldl f acc ((smodel w s).reverse) :=
  rref_rfold_aux w f s.iter.stop s acc rfl hinv

theorem div_ceil_le_self (a b : Nat) (hb : 0 < b) : div_ceil a b ≤ a := by
  rw [div_ceil]
  have h1 : a ≤ a * b := Nat.le_mul_of_pos_right a hb
  have h2 : a + b - 1 < (a + 1) * b := by
    have e : (a + 1) * b = a * b + b := by ring
    omega
  have h3 := (Nat.div_lt_iff_lt_mul hb).mpr h2
  omega

theorem div_ceil_pred_mul_lt (a b : Nat) (hb : 0 < b) (hc : 0 < div_ceil a b) :
    b * (div_ceil a b - 1) < a := by
  have h1 : div_ceil a b * b ≤ a + b - 1 := by
    rw [div_ceil]
    exact Nat.div_mul_le_self _ b
  have ha : 0 < a := by
    by_contra h
    have ha0 : a = 0 := by omega
    rw [div_ceil, ha0] at hc
    rw [Nat.div_eq_of_lt (by omega)] at hc
    omega
  obtain ⟨d, hd⟩ : ∃ d, div_ceil a b = d + 1 := ⟨div_ceil a b - 1, by omega⟩
  rw [hd] at h1
  rw [hd]
  have e1 : (d + 1) * b = d * b + b := by ring
  have e2 : b * (d + 1 - 1) = d * b := by
    have e3 : d + 1 - 1 = d := by omega
    rw [e3]
    exact Nat.mul_comm b d
  omega

theorem rinv_new (w : Nat) (r : URange) (stride : Nat) (s : RStepBy)
    (h1 : r.start ≤ tmax w) (h2 : r.stop ≤ tmax w)
    (hn : RStepBy.new w r stride = some s) : RInv w s := by
  rw [RStepBy.new] at hn
  by_cases h0 : stride = 0
  · simp [h0] at hn
  · rw [if_neg h0] at hn
    have hs : s = ⟨RStepBy.setup w r stride, stride - 1, true⟩ :=
      (Option.some.injEq _ _ ▸ hn).symm
    subst hs
    have hb : 0 < stride := by omega
    have h7 := tmax_lt_pow w
    have hc1 : div_ceil (r.stop - r.start) stride ≤ r.stop - r.start :=
      div_ceil_le_self _ stride hb
    have hmod : div_ceil (r.stop - r.start) stride % 2 ^ w =
        div_ceil (r.stop - r.start) stride := Nat.mod_eq_of_lt (by omega)
    refine ⟨?_, ?_, ?_⟩
    · show div_ceil (r.stop - r.start) stride % 2 ^ w ≤ tmax w
      omega
    · intro hpos
      replace hpos : 0 < div_ceil (r.stop - r.start) stride % 2 ^ w := hpos
      show r.start + min (stride - 1 + 1) (tmax w) *
          (div_ceil (r.stop - r.start) stride % 2 ^ w - 1) ≤ tmax w
      rw [hmod] at hpos ⊢
      have hlt := div_ceil_pred_mul_lt (r.stop - r.start) stride hb hpos
      have hminle : min (stride - 1 + 1) (tmax w) ≤ stride := by omega
      have hmul : min (stride - 1 + 1) (tmax w) *
            (div_ceil (r.stop - r.start) stride - 1) ≤
          stride * (div_ceil (r.stop - r.start) stride - 1) :=
        Nat.mul_le_mul_right _ hminle
      omega
    · intro h2s
      replace h2s : 2 ≤ div_ceil (r.stop - r.start) stride % 2 ^ w := h2s
      show stride - 1 + 1 ≤ tmax w
      rw [hmod] at h2s
      have hlt := div_ceil_pred_mul_lt (r.stop - r.start) stride hb (by omega)
      have hge : stride ≤ stride * (div_ceil (r.stop - r.start) stride - 1) :=
        Nat.le_mul_of_pos_right _ (by omega)
      omega

theorem RReach_inv (w : Nat) (s : RStepBy) (h : RReach w s) : RInv w s := by
  induction h with
  | new r stride s h1 h2 hn => exact rinv_new w r stride s h1 h2 hn
  | next s _ ih => exact (rref_next w s ih).2.2
  | next_back s _ ih => exact (rref_next_back w s ih).2.2
  | nth s n _ ih => exact (rref_nth w s n ih).2.2
  | nth_back s n _ ih => exact (rref_nth_back w s n ih).2.2
  | try_fold s acc f _ ih => exact (rref_try_fold w s acc f ih).2.2
  | try_rfold s acc f _ ih => exact (rref_try_rfold w s acc f ih).2.2

theorem iterLen_next (g : StepBy α) :
    (g.spec_next).2.iter.length ≤ g.iter.length := by
  show ((listNth g.iter _).2).length ≤ _
  simp [listNth]

theorem iterLen_next_back (g : StepBy α) :
    (g.spec_next_back).2.iter.length ≤ g.iter.length := by
  show ((listNthBack g.iter _).2).length ≤ _
  simp [listNthBack]

theorem iterLen_nth (g : StepBy α) (n : Nat) (hs : g.step + 1 ≤ USIZE_MAX) :
    (g.spec_nth n hs).2.iter.length ≤ g.iter.length := by
  obtain ⟨l, step, ft⟩ := g
  show ((StepBy.nthPair l ft n step hs).2).length ≤ l.length
  rw [nthPair_char]
  cases ft <;> simp

theorem iterLen_nth_back (g : StepBy α) (n : Nat) :
    (g.spec_nth_back n).2.iter.length ≤ g.iter.length := by
  show ((listNthBack g.iter _).2).length ≤ _
  simp [listNthBack]

theorem runG_model (ops : List IterOp) :
    ∀ (g : StepBy α) (hs : g.step + 1 ≤ USIZE_MAX),
      g.iter.length ≤ USIZE_MAX →
      g.runG hs ops = runM (gmodel g) ops ∧
      gmodel (g.stateG hs ops) = stateM (gmodel g) ops := by
  induction ops with
  | nil =>
    intro g hs hl
    exact ⟨rfl, rfl⟩
  | cons op ops ih =>
    intro g hs hl
    cases op with
    | next =>
      have h := gref_next g
      have ih2 := ih (g.spec_next).2 hs (Nat.le_trans (iterLen_next g) hl)
      refine ⟨?_, ?_⟩
      · show (g.spec_next).1 :: StepBy.runG (g.spec_next).2 hs ops =
          (gmodel g).head? :: runM (gmodel g).tail ops
        rw [h.1, ih2.1, h.2]
      · show gmodel (StepBy.stateG (g.spec_next).2 hs ops) =
          stateM (gmodel g).tail ops
        rw [ih2.2, h.2]
    | next_back =>
      have h := gref_next_back g
      have ih2 := ih (g.spec_next_back).2 hs (Nat.le_trans (iterLen_next_back g) hl)
      refine ⟨?_, ?_⟩
      · show (g.spec_next_back).1 :: StepBy.runG (g.spec_next_back).2 hs ops =
          (gmodel g).getLast? :: runM (gmodel g).dropLast ops
        rw [h.1, ih2.1, h.2]
      · show gmodel (StepBy.stateG (g.spec_next_back).2 hs ops) =
          stateM (gmodel g).dropLast ops
        rw [ih2.2, h.2]
    | nth n =>
      have h := gref_nth g n hs
      have ih2 := ih (g.spec_nth n hs).2 hs (Nat.le_trans (iterLen_nth g n hs) hl)
      refine ⟨?_, ?_⟩
      · show (g.spec_nth n hs).1 :: StepBy.runG (g.spec_nth n hs).2 hs ops =
          (gmodel g).get? n :: runM ((gmodel g).drop (n + 1)) ops
        rw [h.1, ih2.1, h.2]
      · show gmodel (StepBy.stateG (g.spec_nth n hs).2 hs ops) =
          stateM ((gmodel g).drop (n + 1)) ops
        rw [ih2.2, h.2]
    | nth_back n =>
      have h := gref_nth_back g n hl
      have ih2 := ih (g.spec_nth_back n).2 hs (Nat.le_trans (iterLen_nth_back g n) hl)
      refine ⟨?_, ?_⟩
      · show (g.spec_nth_back n).1 :: StepBy.runG (g.spec_nth_back n).2 hs ops =
          ((gmodel g).reverse).get? n ::
            runM ((gmodel g).take ((gmodel g).length - (n + 1))) ops
        rw [h.1, ih2.1, h.2]
      · show gmodel (StepBy.stateG (g.spec_nth_back n).2 hs ops) =
          stateM ((gmodel g).take ((gmodel g).length - (n + 1))) ops
        rw [ih2.2, h.2]

theorem runR_model (w : Nat) (ops : List IterOp) :
    ∀ (s : RStepBy), RInv w s →
      RStepBy.runR w s ops = runM (smodel w s) ops ∧
      smodel w (RStepBy.stateR w s ops) = stateM (smodel w s) ops ∧
      RInv w (RStepBy.stateR w s ops) := by
  induction ops with
  | nil =>
    intro s hinv
    exact ⟨rfl, rfl, hinv⟩
  | cons op ops ih =>
    intro s hinv
    cases op with
    | next =>
      obtain ⟨h1, h2, h3⟩ := rref_next w s hinv
      obtain ⟨i1, i2, i3⟩ := ih (RStepBy.spec_next w s).2 h3
      refine ⟨?_, ?_, i3⟩
      · show (RStepBy.spec_next w s).1 ::
            RStepBy.runR w (RStepBy.spec_next w s).2 ops =
          (smodel w s).head? :: runM (smodel w s).tail ops
        rw [h1, i1, h2]
      · show smodel w (RStepBy.stateR w (RStepBy.spec_next w s).2 ops) =
          stateM (smodel w s).tail ops
        rw [i2, h2]
    | next_back =>
      obtain ⟨h1, h2, h3⟩ := rref_next_back w s hinv
      obtain ⟨i1, i2, i3⟩ := ih (RStepBy.spec_next_back w s).2 h3
      refine ⟨?_, ?_, i3⟩
      · show (RStepBy.spec_next_back w s).1 ::
            RStepBy.runR w (RStepBy.spec_next_back w s).2 ops =
          (smodel w s).getLast? :: runM (smodel w s).dropLast ops
        rw [h1, i1, h2]
      · show smodel w (RStepBy.stateR w (RStepBy.spec_next_back w s).2 ops) =
          stateM (smodel w s).dropLast ops
        rw [i2, h2]
    | nth n =>
      obtain ⟨h1, h2, h3⟩ := rref_nth w s n hinv
      obtain ⟨i1, i2, i3⟩ := ih (RStepBy.spec_nth w s n).2 h3
      refine ⟨?_, ?_, i3⟩
      · show (RStepBy.spec_nth w s n).1 ::
            RStepBy.runR w (RStepBy.spec_nth w s n).2 ops =
          (smodel w s).get? n :: runM ((smodel w s).drop (n + 1)) ops
        rw [h1, i1, h2]
      · show smodel w (RStepBy.stateR w (RStepBy.spec_nth w s n).2 ops) =
          stateM ((smodel w s).drop (n + 1)) ops
        rw [i2, h2]
    | nth_back n =>
      obtain ⟨h1, h2, h3⟩ := rref_nth_back w s n hinv
      obtain ⟨i1, i2, i3⟩ := ih (RStepBy.spec_nth_back w s n).2 h3
      refine ⟨?_, ?_, i3⟩
      · show (RStepBy.spec_nth_back w s n).1 ::
            RStepBy.runR w (RStepBy.spec_nth_back w s n).2 ops =
          ((smodel w s).reverse).get? n ::
            runM ((smodel w s).take ((smodel w s).length - (n + 1))) ops
        rw [h1, i1, h2]
      · show smodel w (RStepBy.stateR w (RStepBy.spec_nth_back w s n).2 ops) =
          stateM ((smodel w s).take ((smodel w s).length - (n + 1))) ops
        rw [i2, h2]

theorem model_new (w start stop stride : Nat) (g : StepBy Nat) (s : RStepBy)
    (h2 : stop ≤ tmax w)
    (hg : StepBy.new (List.range' start (stop - start) 1) stride = some g)
    (hr : RStepBy.new w ⟨start, stop⟩ stride = some s) :
    gmodel g = smodel w s := by
  rw [StepBy.new] at hg
  rw [RStepBy.new] at hr
  by_cases h0 : stride = 0
  · simp [h0] at hg
  · rw [if_neg h0] at hg hr
    have hgeq : g = ⟨List.range' start (stop - start) 1, stride - 1, true⟩ :=
      (Option.some.injEq _ _ ▸ hg).symm
    have hseq : s = ⟨RStepBy.setup w ⟨start, stop⟩ stride, stride - 1, true⟩ :=
      (Option.some.injEq _ _ ▸ hr).symm
    subst hgeq hseq
    have hb : 0 < stride := Nat.pos_of_ne_zero h0
    have h7 := tmax_lt_pow w
    have hc1 : div_ceil (stop - start) stride ≤ stop - start :=
      div_ceil_le_self _ stride hb
    have hmod : div_ceil (stop - start) stride % 2 ^ w =
        div_ceil (stop - start) stride := Nat.mod_eq_of_lt (by omega)
    show everyNth (List.range' start (stop - start) 1) (stride - 1) =
      List.range' start (div_ceil (stop - start) stride % 2 ^ w)
        (min (stride - 1 + 1) (tmax w))
    rw [everyNth_range', hmod]
    have hcount : (stop - start + (stride - 1)) / (stride - 1 + 1) =
        div_ceil (stop - start) stride := by
      rw [div_ceil]
      congr 1 <;> omega
    rw [hcount]
    by_cases hle : stride ≤ tmax w
    · have hmin : min (stride - 1 + 1) (tmax w) = stride - 1 + 1 := by omega
      rw [hmin]
    · have hcle : div_ceil (stop - start) stride ≤ 1 := by
        by_contra hcg
        have hlt := div_ceil_pred_mul_lt (stop - start) stride hb (by omega)
        have hge : stride ≤ stride * (div_ceil (stop - start) stride - 1) :=
          Nat.le_mul_of_pos_right _ (by omega)
        omega
      interval_cases h : div_ceil (stop - start) stride
      · rfl
      · rfl

/-- C1: for every unsigned element width w ≤ 64, every start, every
end ≥ start and every stride ≥ 1, the specialized range path and the
generic path of StepBy produce identical values in identical order under
any interleaving of next, next_back, nth and nth_back, and the four folds
agree as well. -/
theorem claim_C1 {β ε : Type} (w start stop stride : Nat) (ops : List IterOp)
    (g : StepBy Nat) (s : RStepBy) (acc : β) (fl : β → Nat → β)
    (f : β → Nat → Except ε β)
    (hw : w ≤ 64) (h2 : stop ≤ tmax w) (h3 : start ≤ stop) (h4 : 1 ≤ stride)
    (hg : StepBy.new (List.range' start (stop - start) 1) stride = some g)
    (hr : RStepBy.new w ⟨start, stop⟩ stride = some s)
    (hs : g.step + 1 ≤ USIZE_MAX) :
    g.runG hs ops = RStepBy.runR w s ops ∧
    g.spec_fold acc fl = RStepBy.spec_fold w s acc fl ∧
    (g.spec_try_fold acc f).1 = (RStepBy.spec_try_fold w s acc f).1 ∧
    g.spec_rfold acc fl = RStepBy.spec_rfold w s acc fl ∧
    (g.spec_try_rfold acc f).1 = (RStepBy.spec_try_rfold w s acc f).1 := by
  have hpow : 2 ^ w ≤ 2 ^ 64 := Nat.pow_le_pow_right (by omega) hw
  have htm : tmax w ≤ USIZE_MAX := by
    rw [tmax, USIZE_MAX]
    omega
  have hinv : RInv w s :=
    rinv_new w ⟨start, stop⟩ stride s (show start ≤ tmax w by omega)
      (show stop ≤ tmax w from h2) hr
  have hm : gmodel g = smodel w s := model_new w start stop stride g s h2 hg hr
  have hgl : g = ⟨List.range' start (stop - start) 1, stride - 1, true⟩ := by
    rw [StepBy.new] at hg
    rw [if_neg (by omega : ¬ stride = 0)] at hg
    exact (Option.some.injEq _ _ ▸ hg).symm
  have hl : g.iter.length ≤ USIZE_MAX := by
    rw [hgl]
    show (List.range' start (stop - start) 1).length ≤ USIZE_MAX
    rw [List.length_range']
    omega
  have hrg := runG_model ops g hs hl
  have hrr := runR_model w ops s hinv
  refine ⟨?_, ?_, ?_, ?_, ?_⟩
  · rw [hrg.1, hrr.1, hm]
  · rw [gref_fold, rref_fold w s acc fl hinv, hm]
  · rw [(gref_try_fold g acc f).1, (rref_try_fold w s acc f hinv).1, hm]
  · rw [gref_rfold, rref_rfold w s acc fl hinv, hm]
  · rw [gref_try_rfold, (rref_try_rfold w s acc f hinv).1, hm]

/-- C1 witness: width 8, range 0..10, stride 3, a concrete interleaving. -/
theorem claim_C1_witness :
    StepBy.runG ⟨List.range' 0 10 1, 2, true⟩ (by decide)
        [IterOp.next, IterOp.nth_back 0, IterOp.next_back, IterOp.nth 0,
         IterOp.next] =
      RStepBy.runR 8 ⟨⟨0, 4⟩, 2, true⟩
        [IterOp.next, IterOp.nth_back 0, IterOp.next_back, IterOp.nth 0,
         IterOp.next] :=
  (claim_C1 8 0 10 3
    [IterOp.next, IterOp.nth_back 0, IterOp.next_back, IterOp.nth 0,
     IterOp.next]
    ⟨List.range' 0 10 1, 2, true⟩ ⟨⟨0, 4⟩, 2, true⟩ 0 (fun a x => a + x)
    (fun a x => (Except.ok (a + x) : Except Unit Nat))
    (by decide) (by decide) (by decide) (by decide) rfl rfl (by decide)).1

/-- C2: the overflow-handling loop of the generic nth is a total function
(its well-founded recursion on n + step is accepted because each iteration
strictly decreases n or step), and whenever at least one skip happens it
returns exactly the element at index n * step - 1 of the inner sequence,
having consumed n * step items; consequently spec_nth returns the element
the adapter's schedule designates for every n, including n within one of
usize::MAX. -/
theorem claim_C2 (l : List α) (n step : Nat) (hs0 : step ≤ USIZE_MAX)
    (h1 : 1 ≤ n * step) (g : StepBy α) (m : Nat) (hs : g.step + 1 ≤ USIZE_MAX) :
    StepBy.nthLoop l n step hs0 = (l.get? (n * step - 1), l.drop (n * step)) ∧
    (g.spec_nth m hs).1 = (gmodel g).get? m :=
  ⟨nthLoop_char l n step hs0 h1, (gref_nth g m hs).1⟩

/-- C2 witness: the loop taken at n = usize::MAX. -/
theorem claim_C2_witness :
    StepBy.nthLoop [10, 20, 30] USIZE_MAX 1 (by decide) =
      ([10, 20, 30].get? (USIZE_MAX * 1 - 1), [10, 20, 30].drop (USIZE_MAX * 1)) :=
  (claim_C2 [10, 20, 30] USIZE_MAX 1 (by decide) (by decide)
    (⟨[5, 6, 7], 0, true⟩ : StepBy Nat) 2 (by decide)).1

/-- C3: on both the generic and the specialized path, nth(j) equals
calling next j + 1 times and keeping the last result, including the
post-state. -/
theorem claim_C3 (g : StepBy α) (j : Nat) (hs : g.step + 1 ≤ USIZE_MAX)
    (w : Nat) (s : RStepBy) (j2 : Nat) :
    g.spec_nth j hs = g.nextsLast j ∧
    RStepBy.spec_nth w s j2 = RStepBy.nextsLast w s j2 :=
  ⟨spec_nth_eq_nextsLast g j hs, rspec_nth_eq_nextsLast w s j2⟩

/-- C3 witness: the specialized path at width 8, counter 4, stride 3. -/
theorem claim_C3_witness :
    RStepBy.spec_nth 8 ⟨⟨0, 4⟩, 2, true⟩ 2 =
      RStepBy.nextsLast 8 ⟨⟨0, 4⟩, 2, true⟩ 2 :=
  (claim_C3 (⟨[1, 2, 3, 4, 5], 1, true⟩ : StepBy Nat) 1 (by decide)
    8 ⟨⟨0, 4⟩, 2, true⟩ 2).2

/-- C4: the next-from-back offset is as the spec states (with k = step + 1:
when first_take, k - 1 if len % k = 0 and len % k - 1 otherwise; else
len % k); next_back is inner.nth_back at that offset, nth_back(n) is
inner.nth_back at n * k + offset with saturating mul and add; and under the
inner length bound by usize::MAX the result is the n-th remaining yield
from the back. -/
theorem claim_C4 (g : StepBy α) (n : Nat) (hl : g.iter.length ≤ USIZE_MAX) :
    g.next_back_index =
      (if g.first_take then
        (if g.iter.length % (g.step + 1) = 0 then g.step
         else g.iter.length % (g.step + 1) - 1)
       else g.iter.length % (g.step + 1)) ∧
    g.spec_next_back = ((listNthBack g.iter g.next_back_index).1,
      ⟨(listNthBack g.iter g.next_back_index).2, g.step, g.first_take⟩) ∧
    g.spec_nth_back n = ((listNthBack g.iter
        (saturating_add (saturating_mul n (g.step + 1)) g.next_back_index)).1,
      ⟨(listNthBack g.iter
          (saturating_add (saturating_mul n (g.step + 1)) g.next_back_index)).2,
        g.step, g.first_take⟩) ∧
    (g.spec_nth_back n).1 = ((gmodel g).reverse).get? n :=
  ⟨rfl, rfl, rfl, (gref_nth_back g n hl).1⟩

/-- C4 witness: seven elements, stride 3, first reverse pull after one
skip. -/
theorem claim_C4_witness :
    ((⟨[0, 1, 2, 3, 4, 5, 6], 2, true⟩ : StepBy Nat).spec_nth_back 1).1 =
      ((gmodel ⟨[0, 1, 2, 3, 4, 5, 6], 2, true⟩).reverse).get? 1 :=
  (claim_C4 ⟨[0, 1, 2, 3, 4, 5, 6], 2, true⟩ 1 (by decide)).2.2.2

/-- C5: the generic size_hint is the pure function size_hint_of of the
inner hint, step and first_take; that function applies first_size (0 at 0,
else 1 + (n - 1) / (step + 1)) under first_take and other_size
(n / (step + 1)) otherwise, to the lower bound and through Option.map to
the upper bound; both maps are monotone non-decreasing; and on the exact
list hint the lower bound equals the number of remaining yields. -/
theorem claim_C5 (g : StepBy α) (k low n m : Nat) (high : Option Nat)
    (ft : Bool) (h : n ≤ m) :
    g.spec_size_hint =
      StepBy.size_hint_of g.step g.first_take g.iter.length
        (some g.iter.length) ∧
    StepBy.size_hint_of k ft low high =
      (if ft then (StepBy.first_size k low, high.map (StepBy.first_size k))
       else (StepBy.other_size k low, high.map (StepBy.other_size k))) ∧
    StepBy.first_size k n ≤ StepBy.first_size k m ∧
    StepBy.other_size k n ≤ StepBy.other_size k m ∧
    (g.spec_size_hint).1 = (gmodel g).length := by
  refine ⟨rfl, rfl, ?_, ?_, ?_⟩
  · rw [StepBy.first_size, StepBy.first_size]
    by_cases h0 : n = 0
    · simp [h0]
    · rw [if_neg h0, if_neg (by omega : ¬ m = 0)]
      have h1 : (n - 1) / (k + 1) ≤ (m - 1) / (k + 1) :=
        Nat.div_le_div_right (by omega)
      omega
  · rw [StepBy.other_size, StepBy.other_size]
    exact Nat.div_le_div_right h
  · obtain ⟨l, st, ft2⟩ := g
    cases ft2 with
    | true =>
      show StepBy.first_size st l.length = (everyNth l st).length
      rw [everyNth_length, StepBy.first_size]
      by_cases h0 : l.length = 0
      · rw [if_pos h0, h0, Nat.zero_add, Nat.div_eq_of_lt (by omega)]
      · rw [if_neg h0]
        have e : l.length + st = l.length - 1 + (st + 1) := by omega
        rw [e, Nat.add_div_right _ (by omega)]
        omega
    | false =>
      show StepBy.other_size st l.length = (everyNth (l.drop st) st).length
      rw [everyNth_drop_step_length, StepBy.other_size]

/-- C5 witness: stride 3 maps at concrete bounds. -/
theorem claim_C5_witness :
    StepBy.first_size 2 3 ≤ StepBy.first_size 2 5 :=
  (claim_C5 (⟨[0, 1, 2, 3, 4], 1, true⟩ : StepBy Nat) 2 7 3 5 (some 9) true
    (by decide)).2.2.1

/-- C6: on every reachable state of the specialized range path with a
positive remaining counter, spec_next_back yields
start + min(stride, type-max) * (counter - 1) computed without any mod-2^w
truncation (the value fits the element type), decrements only the counter
and leaves start unchanged; at counter 0 it yields none and keeps the
state. -/
theorem claim_C6 (w : Nat) (s : RStepBy) (h : RReach w s) :
    (0 < s.iter.stop →
      RStepBy.spec_next_back w s =
        (some (s.iter.start + min (s.step + 1) (tmax w) * (s.iter.stop - 1)),
         ⟨⟨s.iter.start, s.iter.stop - 1⟩, s.step, s.first_take⟩) ∧
      s.iter.start + min (s.step + 1) (tmax w) * (s.iter.stop - 1) ≤ tmax w) ∧
    (s.iter.stop = 0 → RStepBy.spec_next_back w s = (none, s)) := by
  have hinv := RReach_inv w s h
  constructor
  · intro h0
    refine ⟨?_, hinv.2.1 h0⟩
    obtain ⟨m, hm⟩ : ∃ m, s.iter.stop = m + 1 := ⟨s.iter.stop - 1, by omega⟩
    have hrb := (rref_next_back w s hinv).1
    have h1 : (RStepBy.spec_next_back w s).1 =
        some (s.iter.start + min (s.step + 1) (tmax w) * (s.iter.stop - 1)) := by
      rw [hrb, show smodel w s =
        List.range' s.iter.start s.iter.stop (min (s.step + 1) (tmax w)) from rfl,
        hm, range'_getLast?]
      have e : m + 1 - 1 = m := by omega
      rw [e]
    have h2 : (RStepBy.spec_next_back w s).2 =
        ⟨⟨s.iter.start, s.iter.stop - 1⟩, s.step, s.first_take⟩ := by
      simp [RStepBy.spec_next_back, h0]
    rw [Prod.ext_iff]
    exact ⟨h1, h2⟩
  · intro h0
    exact rnext_back_stop_zero w s h0

/-- C6 witness: the state reached by the constructor at width 8, range
0..10, stride 3 (counter 4). -/
theorem claim_C6_witness :
    RStepBy.spec_next_back 8 ⟨⟨0, 4⟩, 2, true⟩ =
      (some (0 + min (2 + 1) (tmax 8) * (4 - 1)), ⟨⟨0, 4 - 1⟩, 2, true⟩) ∧
    0 + min (2 + 1) (tmax 8) * (4 - 1) ≤ tmax 8 :=
  (claim_C6 8 ⟨⟨0, 4⟩, 2, true⟩
    (RReach.new ⟨0, 10⟩ 3 ⟨⟨0, 4⟩, 2, true⟩ (by decide) (by decide)
      (by decide))).1 (by decide)

/-- C7: on both paths, try_fold propagates the caller's short-circuit
value verbatim, applies the combining function to no element after the
failing one, and leaves the adapter exactly after the failing element:
result and post-state coincide with the reference short-circuiting fold
over the remaining-yield sequence. -/
theorem claim_C7 {β ε : Type} (g : StepBy α) (acc : β) (f : β → α → Except ε β)
    (w : Nat) (s : RStepBy) (acc2 : β) (f2 : β → Nat → Except ε β)
    (hinv : RInv w s) :
    (g.spec_try_fold acc f).1 = (tryFoldModel f acc (gmodel g)).1 ∧
    gmodel (g.spec_try_fold acc f).2 = (tryFoldModel f acc (gmodel g)).2 ∧
    (RStepBy.spec_try_fold w s acc2 f2).1 =
      (tryFoldModel f2 acc2 (smodel w s)).1 ∧
    smodel w (RStepBy.spec_try_fold w s acc2 f2).2 =
      (tryFoldModel f2 acc2 (smodel w s)).2 := by
  obtain ⟨a1, a2⟩ := gref_try_fold g acc f
  obtain ⟨b1, b2, _⟩ := rref_try_fold w s acc2 f2 hinv
  exact ⟨a1, a2, b1, b2⟩

/-- C7 witness: a fold that fails at the element 3. -/
theorem claim_C7_witness :
    ((⟨[1, 2, 3, 4, 5], 1, true⟩ : StepBy Nat).spec_try_fold 0
        (fun a x => if x = 3 then Except.error 7 else Except.ok (a + x))).1 =
      (tryFoldModel
        (fun a x => if x = 3 then Except.error 7 else Except.ok (a + x)) 0
        (gmodel ⟨[1, 2, 3, 4, 5], 1, true⟩)).1 :=
  (claim_C7 ⟨[1, 2, 3, 4, 5], 1, true⟩ 0
    (fun a x => if x = 3 then Except.error 7 else Except.ok (a + x))
    8 ⟨⟨0, 4⟩, 2, true⟩ 0
    (fun a x => if x = 3 then Except.error 7 else Except.ok (a + x))
    (RReach_inv 8 ⟨⟨0, 4⟩, 2, true⟩
      (RReach.new ⟨0, 10⟩ 3 ⟨⟨0, 4⟩, 2, true⟩ (by decide) (by decide)
        (by decide)))).1

/-- C8: Unique::new is total, returns none exactly on the null pointer,
and on a non-null pointer the wrapped value round-trips through as_ptr. -/
theorem claim_C8 (ptr : Nat) :
    (UniquePtr.new ptr = none ↔ ptr = 0) ∧
    (∀ u, UniquePtr.new ptr = some u → u.as_ptr = ptr) := by
  by_cases h0 : ptr = 0
  · subst h0
    refine ⟨⟨fun _ => rfl, fun _ => rfl⟩, ?_⟩
    intro u hu
    replace hu : (none : Option UniquePtr) = some u := hu
    exact Option.noConfusion hu
  · constructor
    · constructor
      · intro h
        rw [UniquePtr.new, nonNullNew, if_neg h0] at h
        exact Option.noConfusion h
      · intro h
        exact absurd h h0
    · intro u hu
      rw [UniquePtr.new, nonNullNew, if_neg h0] at hu
      replace hu : some (⟨ptr⟩ : UniquePtr) = some u := hu
      cases hu
      rfl

/-- C8 witness: the pointer with address 5. -/
theorem claim_C8_witness :
    UniquePtr.new 5 = none ↔ 5 = 0 :=
  (claim_C8 5).1

/-- C9: StepBy::new with stride 0 aborts on both paths (modelled as none);
the constructor succeeds exactly on positive strides, and then the
specialized setup performs its ceiling division with that positive stride
as divisor, so the division never divides by zero. -/
theorem claim_C9 (iter : List α) (w : Nat) (r : URange) (stride : Nat) :
    StepBy.new iter 0 = (none : Option (StepBy α)) ∧
    RStepBy.new w r 0 = none ∧
    ((RStepBy.new w r stride).isSome → 0 < stride) ∧
    (0 < stride →
      RStepBy.new w r stride =
        some ⟨⟨r.start, div_ceil (r.stop - r.start) stride % 2 ^ w⟩,
          stride - 1, true⟩) := by
  refine ⟨?_, ?_, ?_, ?_⟩
  · rw [StepBy.new]
    simp
  · rw [RStepBy.new]
    simp
  · intro h
    by_contra hc
    have h0 : stride = 0 := by omega
    rw [h0, RStepBy.new] at h
    simp at h
  · intro h
    rw [RStepBy.new, if_neg (by omega : ¬ stride = 0)]
    rfl

/-- C9 witness: width 8, range 2..9, stride 4. -/
theorem claim_C9_witness :
    StepBy.new ([] : List Nat) 0 = none ∧
    RStepBy.new 8 ⟨2, 9⟩ 0 = none ∧
    ((RStepBy.new 8 ⟨2, 9⟩ 4).isSome → 0 < 4) ∧
    (0 < 4 → RStepBy.new 8 ⟨2, 9⟩ 4 =
      some ⟨⟨2, div_ceil (9 - 2) 4 % 2 ^ 8⟩, 4 - 1, true⟩) :=
  claim_C9 [] 8 ⟨2, 9⟩ 4

/-- C10: whenever checked_mul(n, step) overflows for machine-word n and
step, both are at least 2, both divisions usize::MAX / n and
usize::MAX / step are at least 1, both products div * factor are at least
1 (so subtracting 1 from them cannot underflow) and at most usize::MAX
(so each partial nth skips at most usize::MAX - 1 elements), and
step - usize::MAX / n and n - usize::MAX / step are at least 1, so no
subtraction in the overflow loop underflows. -/
theorem claim_C10 (n step : Nat) (hn : n ≤ USIZE_MAX) (hs : step ≤ USIZE_MAX)
    (hov : checked_mul n step = none) :
    2 ≤ n ∧ 2 ≤ step ∧
    1 ≤ USIZE_MAX / n ∧ 1 ≤ USIZE_MAX / step ∧
    1 ≤ USIZE_MAX / n * n ∧ 1 ≤ USIZE_MAX / step * step ∧
    1 ≤ step - USIZE_MAX / n ∧ 1 ≤ n - USIZE_MAX / step ∧
    USIZE_MAX / n * n ≤ USIZE_MAX ∧ USIZE_MAX / step * step ≤ USIZE_MAX := by
  have hovlt : USIZE_MAX < n * step := by
    rw [checked_mul] at hov
    by_cases h : n * step ≤ USIZE_MAX
    · rw [if_pos h] at hov
      exact Option.noConfusion hov
    · omega
  have hn2 : 2 ≤ n := by
    by_contra hc
    have h1 : n * step ≤ 1 * step := Nat.mul_le_mul_right step (by omega)
    have e : 1 * step = step := Nat.one_mul step
    omega
  have hs2 : 2 ≤ step := by
    by_contra hc
    have h1 : n * step ≤ n * 1 := Nat.mul_le_mul_left n (by omega)
    have e : n * 1 = n := Nat.mul_one n
    omega
  have hd1 : 1 ≤ USIZE_MAX / n := (Nat.one_le_div_iff (by omega)).2 hn
  have hd2 : 1 ≤ USIZE_MAX / step := (Nat.one_le_div_iff (by omega)).2 hs
  have hm1 : USIZE_MAX / n * n ≤ USIZE_MAX := Nat.div_mul_le_self _ _
  have hm2 : USIZE_MAX / step * step ≤ USIZE_MAX := Nat.div_mul_le_self _ _
  have hp1 : 1 ≤ USIZE_MAX / n * n := Nat.mul_pos (by omega) (by omega)
  have hp2 : 1 ≤ USIZE_MAX / step * step := Nat.mul_pos (by omega) (by omega)
  have hlt1 : USIZE_MAX / n < step := by
    rw [Nat.div_lt_iff_lt_mul (by omega : 0 < n)]
    have e : step * n = n * step := Nat.mul_comm step n
    omega
  have hlt2 : USIZE_MAX / step < n := by
    rw [Nat.div_lt_iff_lt_mul (by omega : 0 < step)]
    omega
  exact ⟨hn2, hs2, hd1, hd2, hp1, hp2, by omega, by omega, hm1, hm2⟩

/-- C10 witness: n = step = 2 ^ 33, whose product overflows a 64-bit
word. -/
theorem claim_C10_witness :
    2 ≤ 2 ^ 33 ∧ 2 ≤ 2 ^ 33 ∧
    1 ≤ USIZE_MAX / 2 ^ 33 ∧ 1 ≤ USIZE_MAX / 2 ^ 33 ∧
    1 ≤ USIZE_MAX / 2 ^ 33 * 2 ^ 33 ∧ 1 ≤ USIZE_MAX / 2 ^ 33 * 2 ^ 33 ∧
    1 ≤ 2 ^ 33 - USIZE_MAX / 2 ^ 33 ∧ 1 ≤ 2 ^ 33 - USIZE_MAX / 2 ^ 33 ∧
    USIZE_MAX / 2 ^ 33 * 2 ^ 33 ≤ USIZE_MAX ∧
    USIZE_MAX / 2 ^ 33 * 2 ^ 33 ≤ USIZE_MAX :=
  claim_C10 (2 ^ 33) (2 ^ 33) (by decide) (by decide) (by decide)
